import Mathlib

/-!
Verification of the screen-sanctum PII detection, region-merging, policy and
redaction core.

The Python sources are shallowly embedded here:
  * text is `List Char`, character positions are `Nat`;
  * the regular expressions `EMAIL_PATTERN`, `IP_PATTERN`, `DOMAIN_PATTERN`
    and `URL_PATTERN` of `core/detection.py` are embedded as explicit
    backtracking matchers that reproduce Python `re` semantics
    (leftmost scan, alternation order, greedy quantifiers with
    backtracking, ASCII word boundaries) for the concrete patterns;
  * the third-party `phonenumbers` matcher and the custom-rule regex
    engine are modelled as abstract function parameters, since they are
    external libraries and the claims only concern how their raw match
    lists are post-processed;
  * PIL images are fields `width`, `height` and a pixel function; the
    Gaussian-blur and pixelate region transforms are abstract parameters
    (their outputs have the size of the cropped region, as in PIL), while
    the solid fill is concrete.  `ImageDraw.rectangle` paints the
    rectangle inclusive of both corners, which the embedding reproduces.
-/

namespace ScreenSanctum

/-- ASCII decimal digit, by code point. -/
def isDigitC (c : Char) : Bool := 48 ≤ c.toNat && c.toNat ≤ 57

/-- ASCII letter, by code point. -/
def isAlphaC (c : Char) : Bool :=
  (65 ≤ c.toNat && c.toNat ≤ 90) || (97 ≤ c.toNat && c.toNat ≤ 122)

/-- ASCII letter or digit. -/
def isAlnumC (c : Char) : Bool := isDigitC c || isAlphaC c

/-- Regex word character (ASCII): letter, digit or underscore. -/
def isWordC (c : Char) : Bool := isAlnumC c || c.toNat = 95

/-- Character class of the email local part: `[A-Za-z0-9._%+-]`. -/
def isLocalC (c : Char) : Bool :=
  isAlnumC c || c.toNat = 46 || c.toNat = 95 || c.toNat = 37 ||
    c.toNat = 43 || c.toNat = 45

/-- Character class of the email domain part: `[A-Za-z0-9.-]`. -/
def isDomC (c : Char) : Bool := isAlnumC c || c.toNat = 46 || c.toNat = 45

/-- Character class of the email TLD part: `[A-Z|a-z]`.  The class as
written in the source contains a literal vertical bar. -/
def isTldC (c : Char) : Bool := isAlphaC c || c.toNat = 124

/-- Characters that terminate a URL match: the class `[^\s<>"')]`
complemented (ASCII whitespace, angle brackets, quotes, closing paren). -/
def isUrlStopC (c : Char) : Bool :=
  c.toNat = 32 || c.toNat = 9 || c.toNat = 10 || c.toNat = 13 ||
    c.toNat = 11 || c.toNat = 12 || c.toNat = 60 || c.toNat = 62 ||
    c.toNat = 34 || c.toNat = 39 || c.toNat = 41

/-- Domain-label body class `[a-zA-Z0-9-]`. -/
def isLabelMidC (c : Char) : Bool := isAlnumC c || c.toNat = 45

/-- The character at position `i`, if any. -/
def charAt (text : List Char) (i : Nat) : Option Char := text.get? i

/-- Whether the character at `i` exists and satisfies `p`. -/
def testAt (p : Char → Bool) (text : List Char) (i : Nat) : Bool :=
  match charAt text i with
  | some c => p c
  | none => false

/-- Whether position `i` holds a word character. -/
def wordAt (text : List Char) (i : Nat) : Bool := testAt isWordC text i

/-- Whether a word character immediately precedes position `i`. -/
def leftWordAt (text : List Char) : Nat → Bool
  | 0 => false
  | i + 1 => wordAt text i

/-- Regex word boundary `\b` at position `i`: exactly one of the two
surrounding positions holds a word character. -/
def boundaryAt (text : List Char) (i : Nat) : Bool :=
  leftWordAt text i != wordAt text i

/-- Length of the maximal run of characters satisfying `p` from `i`. -/
def runFrom (p : Char → Bool) (text : List Char) (i : Nat) : Nat :=
  ((text.drop i).takeWhile p).length

/-- The half-open slice `[s, e)` of the text. -/
def slice (text : List Char) (s e : Nat) : List Char :=
  (text.drop s).take (e - s)

/-- First `some` produced by `f` over a candidate list, in order. -/
def firstSome (f : Nat → Option Nat) : List Nat → Option Nat
  | [] => none
  | l :: ls =>
    match f l with
    | some r => some r
    | none => firstSome f ls

/-!  ## IPv4 matcher

Embeds `IP_PATTERN`:
`\b(?:(?:25[0-5]|2[0-4][0-9]|[01]?[0-9][0-9]?)\.){3}(?:25[0-5]|2[0-4][0-9]|[01]?[0-9][0-9]?)\b`.
`octetLens` enumerates the lengths an octet alternative can consume at a
position, in the engine's preference order (alternatives left to right,
optional quantifiers greedy). -/

def octetLens (text : List Char) (pos : Nat) : List Nat :=
  let d0 := testAt isDigitC text pos
  let d1 := testAt isDigitC text (pos + 1)
  let d2 := testAt isDigitC text (pos + 2)
  let alt1 :=
    if testAt (fun c => c.toNat = 50) text pos &&
        testAt (fun c => c.toNat = 53) text (pos + 1) &&
        testAt (fun c => 48 ≤ c.toNat && c.toNat ≤ 53) text (pos + 2) then
      [3] else []
  let alt2 :=
    if testAt (fun c => c.toNat = 50) text pos &&
        testAt (fun c => 48 ≤ c.toNat && c.toNat ≤ 52) text (pos + 1) &&
        d2 then
      [3] else []
  let alt3 :=
    if testAt (fun c => c.toNat = 48 || c.toNat = 49) text pos then
      (if d1 then (if d2 then [3] else []) ++ [2] else []) ++
        (if d1 then [2] else []) ++ [1]
    else if d0 then (if d1 then [2] else []) ++ [1]
    else []
  alt1 ++ alt2 ++ alt3

/-- Match `n` dot-separated octet groups starting at `pos`, with a word
boundary after the last one; returns the end position.  Candidate octet
lengths are tried in preference order with full backtracking. -/
def matchGroups (text : List Char) : Nat → Nat → Option Nat
  | 0, _ => none
  | 1, pos =>
    firstSome
      (fun l => if boundaryAt text (pos + l) then some (pos + l) else none)
      (octetLens text pos)
  | n + 2, pos =>
    firstSome
      (fun l =>
        if charAt text (pos + l) = some '.' then
          matchGroups text (n + 1) (pos + l + 1)
        else none)
      (octetLens text pos)

/-- Attempt of `IP_PATTERN` at position `i`. -/
def matchIPAt (text : List Char) (i : Nat) : Option Nat :=
  if boundaryAt text i then matchGroups text 4 i else none

/-!  ## finditer -/

/-- One step of `re.finditer` scanning: try a match at each position from
left to right, resuming after the end of each (non-empty) match. -/
def scanAux (matchAt : List Char → Nat → Option Nat) (text : List Char) :
    Nat → Nat → List (Nat × Nat)
  | 0, _ => []
  | fuel + 1, i =>
    if i > text.length then []
    else
      match matchAt text i with
      | some e =>
        if i < e then (i, e) :: scanAux matchAt text fuel e
        else scanAux matchAt text fuel (i + 1)
      | none => scanAux matchAt text fuel (i + 1)

/-- All matches of a pattern in the text, as `re.finditer` yields them. -/
def findMatches (matchAt : List Char → Nat → Option Nat)
    (text : List Char) : List (Nat × Nat) :=
  scanAux matchAt text (text.length + 2) 0

/-!  ## Email matcher

Embeds `EMAIL_PATTERN`: `\b[A-Za-z0-9._%+-]+\@[A-Za-z0-9.-]+\.[A-Z|a-z]{2,}\b`.
The local part is a maximal run (no shorter split can be followed by `@`
since `@` is outside the class); the domain run backtracks to find the
last usable dot; the TLD run backtracks for the final word boundary. -/

/-- Greedy-then-backtrack search for the TLD length: try `t` characters
for `t` from the run length down to `2`, accepting the first with a word
boundary after it. -/
def emailTldLoop (text : List Char) (pos : Nat) : Nat → Option Nat
  | 0 => none
  | 1 => none
  | t + 2 =>
    if boundaryAt text (pos + t + 2) then some (pos + t + 2)
    else emailTldLoop text pos (t + 1)

/-- Backtracking over the position of the dot before the TLD: `k` runs
from the domain-run length minus one down to `1`. -/
def emailDomLoop (text : List Char) (j0 : Nat) : Nat → Option Nat
  | 0 => none
  | k + 1 =>
    if charAt text (j0 + k + 1) = some '.' then
      match
        emailTldLoop text (j0 + k + 2) (runFrom isTldC text (j0 + k + 2))
      with
      | some e => some e
      | none => emailDomLoop text j0 k
    else emailDomLoop text j0 k

/-- Attempt of `EMAIL_PATTERN` at position `i`. -/
def matchEmailAt (text : List Char) (i : Nat) : Option Nat :=
  if boundaryAt text i then
    let r1 := runFrom isLocalC text i
    if r1 = 0 then none
    else if charAt text (i + r1) = some '@' then
      emailDomLoop text (i + r1 + 1) (runFrom isDomC text (i + r1 + 1) - 1)
    else none
  else none

/-!  ## URL matcher

Embeds `URL_PATTERN`: `\b(?:https?://|www\.)[^\s<>"')]+` (case-insensitive).
-/

/-- Lower-cased code point, for the case-insensitive scheme match. -/
def lowerNat (c : Char) : Nat :=
  if 65 ≤ c.toNat && c.toNat ≤ 90 then c.toNat + 32 else c.toNat

/-- Case-insensitive prefix test of a (lower-case) pattern. -/
def prefCI : List Char → List Char → Bool
  | [], _ => true
  | _ :: _, [] => false
  | p :: ps, c :: cs => (lowerNat c = p.toNat) && prefCI ps cs

/-- Try one scheme alternative at `i`: the prefix must match
case-insensitively and at least one non-stop character must follow. -/
def urlTryPrefix (text : List Char) (i : Nat) (pat : List Char) :
    Option Nat :=
  if prefCI pat (text.drop i) then
    let r := runFrom (fun c => !isUrlStopC c) text (i + pat.length)
    if r = 0 then none else some (i + pat.length + r)
  else none

/-- Attempt of `URL_PATTERN` at position `i`: alternatives in the
engine's order (`https://`, then `http://` from the greedy `s?`, then
`www.`). -/
def matchURLAt (text : List Char) (i : Nat) : Option Nat :=
  if boundaryAt text i then
    match urlTryPrefix text i ("https://".toList) with
    | some e => some e
    | none =>
      match urlTryPrefix text i ("http://".toList) with
      | some e => some e
      | none => urlTryPrefix text i ("www.".toList)
  else none

/-!  ## Domain matcher

Embeds `DOMAIN_PATTERN`:
`\b(?:[a-zA-Z0-9](?:[a-zA-Z0-9-]{0,61}[a-zA-Z0-9])?\.)+[a-zA-Z]{2,}\b`. -/

/-- Candidate lengths consumed by the optional inner part
`(?:[a-zA-Z0-9-]{0,61}[a-zA-Z0-9])?` of a label, greedy first; the
argument is one plus the largest body length `j` to try. -/
def innerCands (text : List Char) (pos : Nat) : Nat → List Nat
  | 0 => []
  | j + 1 =>
    (if ((text.drop (pos + 1)).take j).all isLabelMidC &&
        testAt isAlnumC text (pos + 1 + j) then
      [j + 2] else []) ++ innerCands text pos j

/-- End positions (one past the dot) a single `label.` group can reach
from `pos`, in preference order. -/
def labelDotEnds (text : List Char) (pos : Nat) : List Nat :=
  if testAt isAlnumC text pos then
    let cands :=
      innerCands text pos (min 61 (text.length - pos - 2) + 1) ++ [1]
    cands.filterMap fun l =>
      if charAt text (pos + l) = some '.' then some (pos + l + 1) else none
  else []

/-- Greedy-then-backtrack search for the final `[a-zA-Z]{2,}` with a word
boundary after it. -/
def domTldLoop (text : List Char) (pos : Nat) : Nat → Option Nat
  | 0 => none
  | 1 => none
  | t + 2 =>
    if boundaryAt text (pos + t + 2) then some (pos + t + 2)
    else domTldLoop text pos (t + 1)

/-- Final-label attempt at `pos`. -/
def domTld (text : List Char) (pos : Nat) : Option Nat :=
  domTldLoop text pos (runFrom isAlphaC text pos)

/-- After at least one `label.` group: greedily try to consume another
group (with full backtracking), otherwise match the final label here.
The fuel only bounds the recursion; each group consumes at least two
characters so `text.length + 2` is never exhausted. -/
def domTail (text : List Char) : Nat → Nat → Option Nat
  | 0, _ => none
  | fuel + 1, pos =>
    match firstSome (fun e => domTail text fuel e) (labelDotEnds text pos) with
    | some r => some r
    | none => domTld text pos

/-- Attempt of `DOMAIN_PATTERN` at position `i`. -/
def matchDomainAt (text : List Char) (i : Nat) : Option Nat :=
  if boundaryAt text i then
    firstSome (fun e => domTail text (text.length + 2) e) (labelDotEnds text i)
  else none

/-- Literal (escaped) pattern match at `i`, as used by the domain
detector's exclusion re-scan `re.finditer(re.escape(item.text), ...)`. -/
def matchLitAt (pat : List Char) (text : List Char) (i : Nat) : Option Nat :=
  if pat.isEmpty then none
  else if slice text i (i + pat.length) = pat then some (i + pat.length)
  else none

/-!  ## Data model (`core/ocr.py`, `core/detection.py`, `core/config.py`) -/

/-- One OCR token: text, pixel rectangle and confidence. -/
structure OcrToken where
  text : List Char
  x : Int
  y : Int
  w : Int
  h : Int
  conf : Int
deriving DecidableEq

/-- Kinds of personally identifiable information. -/
inductive PiiType where
  | EMAIL
  | IP
  | DOMAIN
  | URL
  | PHONE
  | FACE
  | CUSTOM
deriving DecidableEq

/-- A pixel-space bounding box `(x, y, w, h)`. -/
structure Box where
  x : Int
  y : Int
  w : Int
  h : Int
deriving DecidableEq

/-- A detected piece of sensitive information. -/
structure DetectedItem where
  pii_type : PiiType
  text : List Char
  boxes : List Box
  has_query_params : Bool
deriving DecidableEq

/-- Ignore lists supplied by a template. -/
structure TemplateIgnore where
  emails : List (List Char)
  domains : List (List Char)
deriving DecidableEq

/-- A caller-supplied custom detection rule. -/
structure CustomRule where
  name : List Char
  regex : List Char
deriving DecidableEq

/-- The template policy input used by `apply_template_policy`. -/
structure RedactionTemplate where
  url_flag_query_params : Bool
deriving DecidableEq

/-!  ## Text assembler (`_build_text_and_mapping`) -/

/-- The loop body of `_build_text_and_mapping`, with `i` the index of the
next token: a single space (mapped to `none`) is inserted before every
token but the first, then the token's characters are mapped to its index. -/
def buildFrom : List OcrToken → Nat → List Char × List (Option Nat)
  | [], _ => ([], [])
  | t :: ts, i =>
    let rest := buildFrom ts (i + 1)
    let sep : List Char := if i = 0 then [] else [' ']
    let sepM : List (Option Nat) := if i = 0 then [] else [none]
    (sep ++ t.text ++ rest.1,
      sepM ++ List.replicate t.text.length (some i) ++ rest.2)

/-- `_build_text_and_mapping`: the assembled text and the
character-to-token offset index. -/
def buildTextAndMapping (tokens : List OcrToken) :
    List Char × List (Option Nat) :=
  buildFrom tokens 0

/-!  ## Box resolution (`_tokens_for_match`) -/

/-- Insert into a strictly sorted list, keeping it sorted and duplicate
free; used to embed Python's `sorted(set(...))`. -/
def insertSorted (n : Nat) : List Nat → List Nat
  | [] => [n]
  | m :: ms =>
    if n < m then n :: m :: ms
    else if n = m then m :: ms
    else m :: insertSorted n ms

/-- Ascending duplicate-free ordering of a list of naturals. -/
def sortedDedup (l : List Nat) : List Nat :=
  l.foldl (fun acc n => insertSorted n acc) []

/-- `_tokens_for_match`: the boxes of the distinct tokens contributing to
the character span `[s, e)`, in increasing token-index order. -/
def tokensForMatch (s e : Nat) (ctt : List (Option Nat))
    (tokens : List OcrToken) : List Box :=
  let idxs := (List.range' s (e - s)).filterMap fun i =>
    match ctt.get? i with
    | some (some k) => some k
    | _ => none
  (sortedDedup idxs).filterMap fun idx =>
    (tokens.get? idx).map fun t => Box.mk t.x t.y t.w t.h

/-!  ## Detectors -/

/-- `email.split('@')[-1] if '@' in email else ''`: the part after the
last `@`. -/
def emailDomain (s : List Char) : List Char :=
  if s.contains '@' then (s.reverse.takeWhile (fun c => c ≠ '@')).reverse
  else []

/-- `_detect_emails`: every `EMAIL_PATTERN` match not in the ignore
lists, kept when it resolves to at least one box. -/
def detectEmails (text : List Char) (ctt : List (Option Nat))
    (tokens : List OcrToken) (ignoreEmails ignoreDomains : List (List Char)) :
    List DetectedItem :=
  (findMatches matchEmailAt text).filterMap fun se =>
    let email := slice text se.1 se.2
    if email ∈ ignoreEmails ∨ emailDomain email ∈ ignoreDomains then none
    else
      let boxes := tokensForMatch se.1 se.2 ctt tokens
      if boxes = [] then none
      else some ⟨PiiType.EMAIL, email, boxes, false⟩

/-- `_detect_ips`. -/
def detectIps (text : List Char) (ctt : List (Option Nat))
    (tokens : List OcrToken) : List DetectedItem :=
  (findMatches matchIPAt text).filterMap fun se =>
    let boxes := tokensForMatch se.1 se.2 ctt tokens
    if boxes = [] then none
    else some ⟨PiiType.IP, slice text se.1 se.2, boxes, false⟩

/-- `_detect_urls`: `has_query_params` is set when the matched text
contains a question mark. -/
def detectUrls (text : List Char) (ctt : List (Option Nat))
    (tokens : List OcrToken) : List DetectedItem :=
  (findMatches matchURLAt text).filterMap fun se =>
    let url := slice text se.1 se.2
    let boxes := tokensForMatch se.1 se.2 ctt tokens
    if boxes = [] then none
    else some ⟨PiiType.URL, url, boxes, url.contains '?'⟩

/-- Whether character position `i` falls inside some non-overlapping
literal occurrence of some excluded item's text (the source rebuilds the
excluded ranges by `re.finditer(re.escape(item.text), full_text)`). -/
def inExcluded (excl : List DetectedItem) (text : List Char) (i : Nat) :
    Bool :=
  excl.any fun item =>
    (findMatches (matchLitAt item.text) text).any fun se =>
      se.1 ≤ i && i < se.2

/-- The spans of `DOMAIN_PATTERN` matches that survive the ignore list
and the character-level overlap exclusion of `_detect_domains`. -/
def domainKeptSpans (text : List Char) (excl : List DetectedItem)
    (ignoreDomains : List (List Char)) : List (Nat × Nat) :=
  (findMatches matchDomainAt text).filter fun se =>
    decide (slice text se.1 se.2 ∉ ignoreDomains) &&
      !(List.range' se.1 (se.2 - se.1)).any (inExcluded excl text)

/-- `_detect_domains`. -/
def detectDomains (text : List Char) (ctt : List (Option Nat))
    (tokens : List OcrToken) (excl : List DetectedItem)
    (ignoreDomains : List (List Char)) : List DetectedItem :=
  (domainKeptSpans text excl ignoreDomains).filterMap fun se =>
    let boxes := tokensForMatch se.1 se.2 ctt tokens
    if boxes = [] then none
    else some ⟨PiiType.DOMAIN, slice text se.1 se.2, boxes, false⟩

/-!  ## Phone detector (`_detect_phones`)

The third-party `phonenumbers.PhoneNumberMatcher` is modelled by an
abstract parameter `pm` mapping the assembled text and a region hint to
the raw matches `(raw_string, start, end)` its iteration yields (matches
produced before an exception simply appear in the list; an aborted pass
contributes what it yielded, exactly as the `try/except` does).  The
source iterates the region hints with one shared `seen` set and one
shared output list, which is the same as processing the concatenation of
the per-region match lists in order. -/

/-- A phone match key: raw text with start and end offsets. -/
abbrev PhoneKey := List Char × Nat × Nat

/-- The fixed region-hint list `[None, 'US', 'GB', 'CA', 'AU']`. -/
def phoneRegions : List (Option (List Char)) :=
  [none, some "US".toList, some "GB".toList, some "CA".toList,
    some "AU".toList]

/-- The dedup-and-resolve loop over raw phone matches, threading the
`seen` set; emits one keyed item per first-seen key with boxes. -/
def phoneLoop (ctt : List (Option Nat)) (tokens : List OcrToken) :
    List PhoneKey → List PhoneKey → List (PhoneKey × DetectedItem)
  | [], _ => []
  | m :: ms, seen =>
    if m ∈ seen then phoneLoop ctt tokens ms seen
    else
      let boxes := tokensForMatch m.2.1 m.2.2 ctt tokens
      if boxes = [] then phoneLoop ctt tokens ms (m :: seen)
      else
        (m, ⟨PiiType.PHONE, m.1, boxes, false⟩) ::
          phoneLoop ctt tokens ms (m :: seen)

/-- `_detect_phones` instrumented with each emitted item's match key. -/
def detectPhonesKeyed
    (pm : List Char → Option (List Char) → List PhoneKey)
    (text : List Char) (ctt : List (Option Nat))
    (tokens : List OcrToken) : List (PhoneKey × DetectedItem) :=
  phoneLoop ctt tokens ((phoneRegions.map (pm text)).flatten) []

/-- `_detect_phones`. -/
def detectPhones (pm : List Char → Option (List Char) → List PhoneKey)
    (text : List Char) (ctt : List (Option Nat))
    (tokens : List OcrToken) : List DetectedItem :=
  (detectPhonesKeyed pm text ctt tokens).map Prod.snd

/-!  ## Custom rules and `detect_pii`

The custom-rule regex engine is abstracted by `findCustom`, mapping a
rule's regex source and the assembled text to the spans `re.finditer`
would yield; a rule whose regex fails to compile contributes no spans. -/

/-- The custom-rule pass of `detect_pii`. -/
def detectCustom (findCustom : List Char → List Char → List (Nat × Nat))
    (text : List Char) (ctt : List (Option Nat)) (tokens : List OcrToken)
    (rules : List CustomRule) : List DetectedItem :=
  rules.flatMap fun rule =>
    if rule.name = [] ∨ rule.regex = [] then []
    else
      (findCustom rule.regex text).filterMap fun se =>
        let boxes := tokensForMatch se.1 se.2 ctt tokens
        if boxes = [] then none
        else some ⟨PiiType.CUSTOM, rule.name, boxes, false⟩

/-- `detect_pii`: assemble the text, run every detector, concatenate the
results in source order (emails, IPs, URLs, domains with the previous
three as exclusions, phones, custom rules). -/
def detectPii (pm : List Char → Option (List Char) → List PhoneKey)
    (findCustom : List Char → List Char → List (Nat × Nat))
    (tokens : List OcrToken) (ignoreList : Option TemplateIgnore)
    (customRules : List CustomRule) : List DetectedItem :=
  if tokens = [] then []
  else
    let ignoreEmails := match ignoreList with
      | some l => l.emails
      | none => []
    let ignoreDomains := match ignoreList with
      | some l => l.domains
      | none => []
    let tm := buildTextAndMapping tokens
    let text := tm.1
    let ctt := tm.2
    let base :=
      detectEmails text ctt tokens ignoreEmails ignoreDomains ++
        detectIps text ctt tokens ++ detectUrls text ctt tokens
    base ++ detectDomains text ctt tokens base ignoreDomains ++
      detectPhones pm text ctt tokens ++
      detectCustom findCustom text ctt tokens customRules

/-!  ## Regions (`core/regions.py`) -/

/-- A rectangular redaction region. -/
structure Region where
  pii_type : Option PiiType
  text : List Char
  x : Int
  y : Int
  w : Int
  h : Int
  selected : Bool
  manual : Bool
deriving DecidableEq

/-- `merge_boxes`: the minimal enclosing rectangle of an item's boxes,
or a zero-size region at the origin when there are none. -/
def mergeBoxes (item : DetectedItem) : Region :=
  match item.boxes with
  | [] => ⟨some item.pii_type, item.text, 0, 0, 0, 0, true, false⟩
  | b :: bs =>
    let minX := bs.foldl (fun a box => min a box.x) b.x
    let minY := bs.foldl (fun a box => min a box.y) b.y
    let maxX := bs.foldl (fun a box => max a (box.x + box.w)) (b.x + b.w)
    let maxY := bs.foldl (fun a box => max a (box.y + box.h)) (b.y + b.h)
    ⟨some item.pii_type, item.text, minX, minY, maxX - minX, maxY - minY,
      true, false⟩

/-- `build_regions`: one region per item, in order. -/
def buildRegions (items : List DetectedItem) : List Region :=
  items.map mergeBoxes

/-- `apply_template_policy`: build the regions, then rewrite `selected`
of each URL region from the template flag and the parallel item's
`has_query_params`. -/
def applyTemplatePolicy (detections : List DetectedItem)
    (template : RedactionTemplate) : List Region :=
  List.zipWith
    (fun (region : Region) (detection : DetectedItem) =>
      if region.pii_type = some PiiType.URL then
        if template.url_flag_query_params && detection.has_query_params then
          { region with selected := true }
        else if template.url_flag_query_params &&
            !detection.has_query_params then
          { region with selected := false }
        else
          { region with selected := true }
      else region)
    (buildRegions detections) detections

/-!  ## Redaction (`core/redaction.py`)

An image is a width, a height and a total pixel function (pixel values
are abstract naturals; the solid fill value, PIL black, is `0`).  The
Gaussian-blur and the pixelate transforms are abstract parameters giving
the pixel values of the transformed crop; both `_apply_blur` and
`_apply_pixelate` paste a transformed copy of the crop back at `(x, y)`,
so they repaint exactly the half-open crop rectangle.  `_apply_solid`
uses `ImageDraw.rectangle([x, y, x2, y2])`, which paints the rectangle
inclusive of both corners, clipped to the canvas. -/

/-- The redaction styles. -/
inductive RedactionStyle where
  | BLUR
  | SOLID
  | PIXELATE
deriving DecidableEq

/-- An image: dimensions and a pixel function. -/
structure Img where
  width : Nat
  height : Nat
  pix : Nat → Nat → Nat

/-- The solid fill value (black). -/
def blackPix : Nat := 0

/-- `_apply_solid`: paint the inclusive rectangle `[x, x2] × [y, y2]`
black, clipped to the canvas (PIL's `ImageDraw.rectangle` includes both
corner points). -/
def applySolid (image : Img) (x y x2 y2 : Nat) : Img :=
  ⟨image.width, image.height, fun i j =>
    if x ≤ i ∧ i ≤ x2 ∧ y ≤ j ∧ j ≤ y2 ∧ i < image.width ∧ j < image.height
    then blackPix
    else image.pix i j⟩

/-- `_apply_blur` / `_apply_pixelate`: crop `[x, x2) × [y, y2)`, apply
the abstract region transform `f` to the crop, and paste the result
(which has the crop's size) back at `(x, y)`, clipped to the canvas. -/
def applyPaste (f : Img → Nat → Nat → Nat) (image : Img)
    (x y x2 y2 : Nat) : Img :=
  let cropped : Img := ⟨x2 - x, y2 - y, fun i j => image.pix (x + i) (y + j)⟩
  ⟨image.width, image.height, fun i j =>
    if x ≤ i ∧ i < x2 ∧ y ≤ j ∧ j < y2 ∧ i < image.width ∧ j < image.height
    then f cropped (i - x) (j - y)
    else image.pix i j⟩

/-- The per-region step of `apply_redaction`: skip degenerate or
non-intersecting regions, clamp the rectangle to the image, then apply
the style. -/
def redactStep (blurFn pixFn : Img → Nat → Nat → Nat)
    (style : RedactionStyle) (image : Img) (region : Region) : Img :=
  if region.w ≤ 0 ∨ region.h ≤ 0 then image
  else
    let x : Int := max 0 region.x
    let y : Int := max 0 region.y
    let x2 : Int := min (image.width : Int) (region.x + region.w)
    let y2 : Int := min (image.height : Int) (region.y + region.h)
    if x ≥ (image.width : Int) ∨ y ≥ (image.height : Int) ∨ x2 ≤ x ∨ y2 ≤ y
    then image
    else
      match style with
      | RedactionStyle.BLUR =>
        applyPaste blurFn image x.toNat y.toNat x2.toNat y2.toNat
      | RedactionStyle.SOLID =>
        applySolid image x.toNat y.toNat x2.toNat y2.toNat
      | RedactionStyle.PIXELATE =>
        applyPaste pixFn image x.toNat y.toNat x2.toNat y2.toNat

/-- `apply_redaction`: filter the selected regions and fold the
per-region step over them, starting from a copy of the image. -/
def applyRedaction (blurFn pixFn : Img → Nat → Nat → Nat) (image : Img)
    (regions : List Region) (style : RedactionStyle) : Img :=
  (regions.filter fun r => r.selected).foldl
    (redactStep blurFn pixFn style) image

/-!  ## Specification-side predicates -/

/-- Decimal value of a digit string. -/
def digitsVal (s : List Char) : Nat :=
  s.foldl (fun a c => 10 * a + (c.toNat - 48)) 0

/-- A valid dotted-quad group: a non-empty digit string whose value is at
most `255`. -/
def octetOk (s : List Char) : Bool :=
  !s.isEmpty && s.all isDigitC && decide (digitsVal s ≤ 255)

/-- Join groups with single dots, as in a dotted quad. -/
def dotJoin : List (List Char) → List Char
  | [] => []
  | [g] => g
  | g :: g2 :: gs => g ++ '.' :: dotJoin (g2 :: gs)

/-- The characters after the last dot of a string (the whole string if
it has no dot). -/
def afterLastDot (s : List Char) : List Char :=
  (s.reverse.takeWhile fun c => c ≠ '.').reverse

/-- Sum of the token text lengths. -/
def sumTextLens (tokens : List OcrToken) : Nat :=
  (tokens.map fun t => t.text.length).sum

/-- Offset at which token `k`'s text starts in the assembled text (one
separator after each earlier token). -/
def tokenStart (tokens : List OcrToken) (k : Nat) : Nat :=
  ((tokens.take k).map fun t => t.text.length + 1).sum

/-- The length of the leading separator `buildFrom` emits at index `i`. -/
def sepLen (i : Nat) : Nat := if i = 0 then 0 else 1

/-- Pixel `(i, j)` lies in the clamped (corner-inclusive) rectangle of a
region on the given image; every redaction style repaints only pixels
inside this set. -/
def pixInClamp (image : Img) (region : Region) (i j : Nat) : Prop :=
  (max 0 region.x).toNat ≤ i ∧
    i ≤ (min (image.width : Int) (region.x + region.w)).toNat ∧
    (max 0 region.y).toNat ≤ j ∧
    j ≤ (min (image.height : Int) (region.y + region.h)).toNat

/-!  ## Concrete fixtures used by the example parts of the claims -/

/-- A token whose text assembles to `192.168.1.256`. -/
def ipTok256 : OcrToken := ⟨"192.168.1.256".toList, 0, 0, 50, 10, 90⟩

/-- A token whose text assembles to `192.168.1.1`. -/
def ipTok11 : OcrToken := ⟨"192.168.1.1".toList, 0, 0, 50, 10, 90⟩

/-- A token whose text assembles to `bob@example.com`. -/
def bobTok : OcrToken := ⟨"bob@example.com".toList, 5, 7, 90, 12, 90⟩

/-- A token carrying an email whose matched TLD segment contains a
vertical bar. -/
def barTok : OcrToken := ⟨"a@b.c|d".toList, 0, 0, 30, 10, 90⟩

/-- The token of the domain-overlap counterexample: its text contains a
URL whose matched text recurs, shifted, inside its own span. -/
def cexTok : OcrToken := ⟨"_www./ab.www./ab.www./".toList, 0, 0, 100, 10, 90⟩

/-- Assembled text of a one-token list (equal to the token's text). -/
def asmText (t : OcrToken) : List Char := (buildTextAndMapping [t]).1

/-- Offset index of a one-token list. -/
def asmCtt (t : OcrToken) : List (Option Nat) := (buildTextAndMapping [t]).2

/-- The email, IP and URL items found on the counterexample text — the
`exclude_matches` handed to the domain detector by `detect_pii`. -/
def cexBase : List DetectedItem :=
  detectEmails (asmText cexTok) (asmCtt cexTok) [cexTok] [] [] ++
    detectIps (asmText cexTok) (asmCtt cexTok) [cexTok] ++
    detectUrls (asmText cexTok) (asmCtt cexTok) [cexTok]

/-- A token holding a URL with query parameters. -/
def urlTokQ : OcrToken := ⟨"http://a.com?x=1".toList, 0, 0, 80, 10, 90⟩

/-- A token holding a URL without query parameters. -/
def urlTokP : OcrToken := ⟨"http://a.com/page".toList, 0, 0, 80, 10, 90⟩

/-- An empty phone matcher (models a `phonenumbers` run with no hits). -/
def pmNone : List Char → Option (List Char) → List PhoneKey := fun _ _ => []

/-- An empty custom-rule regex engine. -/
def fcNone : List Char → List Char → List (Nat × Nat) := fun _ _ => []

/-- The raw phone text `555-123-4567`. -/
def phoneText : List Char := "555-123-4567".toList

/-- Two tokens with identical phone text at different positions. -/
def phoneTokA : OcrToken := ⟨phoneText, 0, 0, 100, 20, 90⟩

/-- Second phone token, at a different `y`. -/
def phoneTokB : OcrToken := ⟨phoneText, 0, 40, 100, 20, 90⟩

/-- A phone matcher modelling `phonenumbers` finding the two occurrences
of `555-123-4567` in the assembled two-token text on every region pass. -/
def pmTwo : List Char → Option (List Char) → List PhoneKey :=
  fun _ _ => [(phoneText, 0, 12), (phoneText, 13, 25)]

/-- Example item of the box-merge claim: three horizontally separated
boxes. -/
def mergeItemEx : DetectedItem :=
  ⟨PiiType.EMAIL, "x".toList,
    [⟨0, 0, 10, 10⟩, ⟨20, 0, 10, 10⟩, ⟨40, 0, 30, 10⟩], false⟩

/-- A 1×1 image whose only pixel has value `1`. -/
def img1 : Img := ⟨1, 1, fun _ _ => 1⟩

/-- A 3×3 image with every pixel `1`. -/
def img3 : Img := ⟨3, 3, fun _ _ => 1⟩

/-- An unselected region covering the single pixel of `img1`. -/
def regUnsel : Region := ⟨none, [], 0, 0, 1, 1, false, false⟩

/-- A selected region covering the single pixel of `img1`. -/
def regSel : Region := ⟨none, [], 0, 0, 1, 1, true, false⟩

/-- A selected region whose clamped half-open rectangle on `img3` is the
single pixel `(0, 0)`. -/
def regOne : Region := ⟨none, [], 0, 0, 1, 1, true, false⟩

/-- A constant region transform standing in for blur or pixelate in the
closed counterexamples. -/
def zeroFn : Img → Nat → Nat → Nat := fun _ _ _ => 0

/-!  ## Generic helper lemmas -/

theorem drop_of_charAt {text : List Char} {i : Nat} {c : Char}
    (h : charAt text i = some c) : text.drop i = c :: text.drop (i + 1) := by
  induction text generalizing i with
  | nil => simp [charAt] at h
  | cons a l ih =>
    cases i with
    | zero => simp [charAt] at h; simp [h]
    | succ n =>
      have := ih (i := n) (by simpa [charAt] using h)
      simpa using this

theorem slice_append {text : List Char} {a b c : Nat} (hab : a ≤ b)
    (hbc : b ≤ c) :
    slice text a b ++ slice text b c = slice text a c := by
  unfold slice
  have h1 : c - a = (b - a) + (c - b) := by omega
  rw [h1, List.take_add, List.drop_drop]
  have h2 : a + (b - a) = b := by omega
  rw [h2]

theorem slice_one {text : List Char} {i : Nat} {c : Char}
    (h : charAt text i = some c) : slice text i (i + 1) = [c] := by
  unfold slice
  rw [drop_of_charAt h]
  simp

theorem take_all_of_takeWhile {p : Char → Bool} :
    ∀ (l : List Char) (m : Nat), m ≤ (l.takeWhile p).length →
      ∀ c ∈ l.take m, p c = true := by
  intro l
  induction l with
  | nil => intro m _ c hc; simp at hc
  | cons a l ih =>
    intro m hm c hc
    by_cases hp : p a
    · cases m with
      | zero => simp at hc
      | succ m =>
        simp only [List.take_succ_cons, List.mem_cons] at hc
        rcases hc with rfl | hc
        · exact hp
        · exact ih m (by simpa [List.takeWhile_cons, hp] using hm) c hc
    · simp [List.takeWhile_cons, Bool.of_not_eq_true hp] at hm
      subst hm
      simp at hc

theorem slice_all_of_run {p : Char → Bool} {text : List Char} {i m : Nat}
    (h : m ≤ runFrom p text i) : ∀ c ∈ slice text i (i + m), p c = true := by
  intro c hc
  unfold slice at hc
  have hm : i + m - i = m := by omega
  rw [hm] at hc
  exact take_all_of_takeWhile (text.drop i) m h c hc

theorem slice_length {text : List Char} {s e : Nat} :
    (slice text s e).length = min (e - s) (text.length - s) := by
  unfold slice
  simp [List.length_take]

theorem runFrom_le {p : Char → Bool} {text : List Char} {i : Nat} :
    runFrom p text i ≤ text.length - i := by
  unfold runFrom
  have h := (List.takeWhile_prefix (l := text.drop i) p).length_le
  simpa using h

theorem firstSome_eq_some {f : Nat → Option Nat} :
    ∀ {L : List Nat} {r : Nat}, firstSome f L = some r →
      ∃ x ∈ L, f x = some r := by
  intro L
  induction L with
  | nil => intro r h; simp [firstSome] at h
  | cons x xs ih =>
    intro r h
    unfold firstSome at h
    cases hfx : f x with
    | some v =>
      rw [hfx] at h
      exact ⟨x, by simp, by simpa [hfx] using h⟩
    | none =>
      rw [hfx] at h
      obtain ⟨y, hy, hfy⟩ := ih h
      exact ⟨y, by simp [hy], hfy⟩

theorem scanAux_mem {matchAt : List Char → Nat → Option Nat}
    {text : List Char} :
    ∀ {fuel i s e : Nat}, (s, e) ∈ scanAux matchAt text fuel i →
      matchAt text s = some e := by
  intro fuel
  induction fuel with
  | zero => intro i s e h; simp [scanAux] at h
  | succ fuel ih =>
    intro i s e h
    unfold scanAux at h
    split at h
    · simp at h
    · rcases hm : matchAt text i with _ | v
      · simp only [hm] at h
        exact ih h
      · simp only [hm] at h
        split at h
        · rcases List.mem_cons.mp h with heq | h
          · have hs : s = i := congrArg Prod.fst heq
            have he : e = v := congrArg Prod.snd heq
            rw [hs, he]
            exact hm
          · exact ih h
        · exact ih h

theorem mem_findMatches {matchAt : List Char → Nat → Option Nat}
    {text : List Char} {s e : Nat}
    (h : (s, e) ∈ findMatches matchAt text) : matchAt text s = some e :=
  scanAux_mem h

theorem get?_zipWith_eq_some {α β γ : Type} {f : α → β → γ} :
    ∀ {l1 : List α} {l2 : List β} {i : Nat} {c : γ},
      (List.zipWith f l1 l2).get? i = some c →
        ∃ a b, l1.get? i = some a ∧ l2.get? i = some b ∧ c = f a b := by
  intro l1
  induction l1 with
  | nil => intro l2 i c h; simp at h
  | cons a l1 ih =>
    intro l2 i c h
    cases l2 with
    | nil => simp at h
    | cons b l2 =>
      cases i with
      | zero =>
        simp only [List.zipWith_cons_cons, List.get?] at h
        exact ⟨a, b, rfl, rfl, by simpa using h.symm⟩
      | succ n =>
        simp only [List.zipWith_cons_cons, List.get?] at h
        obtain ⟨x, y, hx, hy, hc⟩ := ih h
        exact ⟨x, y, by simpa using hx, by simpa using hy, hc⟩

/-!  ## Fold lemmas for minima and maxima -/

theorem foldl_min_le_init {α : Type} (f : α → Int) :
    ∀ (l : List α) (a : Int),
      List.foldl (fun acc x => min acc (f x)) a l ≤ a := by
  intro l
  induction l with
  | nil => intro a; simp
  | cons x xs ih =>
    intro a
    calc List.foldl (fun acc x => min acc (f x)) (min a (f x)) xs
        ≤ min a (f x) := ih _
      _ ≤ a := min_le_left _ _

theorem foldl_min_le_mem {α : Type} (f : α → Int) :
    ∀ (l : List α) (a : Int) (x : α), x ∈ l →
      List.foldl (fun acc y => min acc (f y)) a l ≤ f x := by
  intro l
  induction l with
  | nil => intro a x hx; simp at hx
  | cons y ys ih =>
    intro a x hx
    rcases List.mem_cons.mp hx with rfl | hx
    · calc List.foldl (fun acc z => min acc (f z)) (min a (f x)) ys
          ≤ min a (f x) := foldl_min_le_init f ys _
        _ ≤ f x := min_le_right _ _
    · exact ih _ x hx

theorem foldl_min_cases {α : Type} (f : α → Int) :
    ∀ (l : List α) (a : Int),
      List.foldl (fun acc x => min acc (f x)) a l = a ∨
        ∃ x ∈ l, List.foldl (fun acc y => min acc (f y)) a l = f x := by
  intro l
  induction l with
  | nil => intro a; left; rfl
  | cons y ys ih =>
    intro a
    rcases ih (min a (f y)) with h | ⟨x, hx, h⟩
    · simp only [List.foldl_cons]
      rcases min_cases a (f y) with ⟨hmin, _⟩ | ⟨hmin, _⟩
      · left; rw [h, hmin]
      · right; exact ⟨y, by simp, by rw [h, hmin]⟩
    · right
      exact ⟨x, by simp [hx], by simpa using h⟩

theorem foldl_max_init_le {α : Type} (f : α → Int) :
    ∀ (l : List α) (a : Int),
      a ≤ List.foldl (fun acc x => max acc (f x)) a l := by
  intro l
  induction l with
  | nil => intro a; simp
  | cons x xs ih =>
    intro a
    calc a ≤ max a (f x) := le_max_left _ _
      _ ≤ List.foldl (fun acc y => max acc (f y)) (max a (f x)) xs := ih _

theorem foldl_max_mem_le {α : Type} (f : α → Int) :
    ∀ (l : List α) (a : Int) (x : α), x ∈ l →
      f x ≤ List.foldl (fun acc y => max acc (f y)) a l := by
  intro l
  induction l with
  | nil => intro a x hx; simp at hx
  | cons y ys ih =>
    intro a x hx
    rcases List.mem_cons.mp hx with rfl | hx
    · calc f x ≤ max a (f x) := le_max_right _ _
        _ ≤ List.foldl (fun acc z => max acc (f z)) (max a (f x)) ys :=
          foldl_max_init_le f ys _
    · exact ih _ x hx

theorem foldl_max_cases {α : Type} (f : α → Int) :
    ∀ (l : List α) (a : Int),
      List.foldl (fun acc x => max acc (f x)) a l = a ∨
        ∃ x ∈ l, List.foldl (fun acc y => max acc (f y)) a l = f x := by
  intro l
  induction l with
  | nil => intro a; left; rfl
  | cons y ys ih =>
    intro a
    rcases ih (max a (f y)) with h | ⟨x, hx, h⟩
    · simp only [List.foldl_cons]
      rcases max_cases a (f y) with ⟨hmax, _⟩ | ⟨hmax, _⟩
      · left; rw [h, hmax]
      · right; exact ⟨y, by simp, by rw [h, hmax]⟩
    · right
      exact ⟨x, by simp [hx], by simpa using h⟩

/-!  ## Claim C3: box merging -/

/-- C3: for every DetectedItem with a non-empty boxes list, `merge_boxes`
returns the minimal enclosing rectangle: its `x`/`y` are the least box
`x`/`y`, its far corner `x + w` / `y + h` is the greatest box
`x + w` / `y + h`; and the boxes `(0,0,10,10)`, `(20,0,10,10)`,
`(40,0,30,10)` merge to the single enclosing region `(0,0,70,10)`. -/
theorem claim_C3_merge_boxes (item : DetectedItem) (h : item.boxes ≠ []) :
    ((∀ b ∈ item.boxes, (mergeBoxes item).x ≤ b.x) ∧
      (∃ b ∈ item.boxes, (mergeBoxes item).x = b.x)) ∧
    ((∀ b ∈ item.boxes, (mergeBoxes item).y ≤ b.y) ∧
      (∃ b ∈ item.boxes, (mergeBoxes item).y = b.y)) ∧
    ((∀ b ∈ item.boxes,
        b.x + b.w ≤ (mergeBoxes item).x + (mergeBoxes item).w) ∧
      (∃ b ∈ item.boxes,
        (mergeBoxes item).x + (mergeBoxes item).w = b.x + b.w)) ∧
    ((∀ b ∈ item.boxes,
        b.y + b.h ≤ (mergeBoxes item).y + (mergeBoxes item).h) ∧
      (∃ b ∈ item.boxes,
        (mergeBoxes item).y + (mergeBoxes item).h = b.y + b.h)) ∧
    mergeBoxes mergeItemEx =
      ⟨some PiiType.EMAIL, "x".toList, 0, 0, 70, 10, true, false⟩ := by
  rcases item with ⟨ty, txt, boxes, hq⟩
  rcases boxes with _ | ⟨b, bs⟩
  · exact absurd rfl h
  have hx : (mergeBoxes ⟨ty, txt, b :: bs, hq⟩).x =
      List.foldl (fun a box => min a box.x) b.x bs := rfl
  have hy : (mergeBoxes ⟨ty, txt, b :: bs, hq⟩).y =
      List.foldl (fun a box => min a box.y) b.y bs := rfl
  have hxw : (mergeBoxes ⟨ty, txt, b :: bs, hq⟩).x +
      (mergeBoxes ⟨ty, txt, b :: bs, hq⟩).w =
      List.foldl (fun a box => max a (box.x + box.w)) (b.x + b.w) bs := by
    show List.foldl (fun a box => min a box.x) b.x bs +
      (List.foldl (fun a box => max a (box.x + box.w)) (b.x + b.w) bs -
        List.foldl (fun a box => min a box.x) b.x bs) = _
    omega
  have hyh : (mergeBoxes ⟨ty, txt, b :: bs, hq⟩).y +
      (mergeBoxes ⟨ty, txt, b :: bs, hq⟩).h =
      List.foldl (fun a box => max a (box.y + box.h)) (b.y + b.h) bs := by
    show List.foldl (fun a box => min a box.y) b.y bs +
      (List.foldl (fun a box => max a (box.y + box.h)) (b.y + b.h) bs -
        List.foldl (fun a box => min a box.y) b.y bs) = _
    omega
  refine ⟨⟨?_, ?_⟩, ⟨?_, ?_⟩, ⟨?_, ?_⟩, ⟨?_, ?_⟩, by decide⟩
  · intro b' hb'
    rw [hx]
    rcases List.mem_cons.mp hb' with rfl | hb'
    · exact foldl_min_le_init _ bs _
    · exact foldl_min_le_mem _ bs _ b' hb'
  · rw [hx]
    rcases foldl_min_cases (fun box : Box => box.x) bs b.x with heq | ⟨x, hx', heq⟩
    · exact ⟨b, by simp, heq⟩
    · exact ⟨x, by simp [hx'], heq⟩
  · intro b' hb'
    rw [hy]
    rcases List.mem_cons.mp hb' with rfl | hb'
    · exact foldl_min_le_init _ bs _
    · exact foldl_min_le_mem _ bs _ b' hb'
  · rw [hy]
    rcases foldl_min_cases (fun box : Box => box.y) bs b.y with heq | ⟨x, hx', heq⟩
    · exact ⟨b, by simp, heq⟩
    · exact ⟨x, by simp [hx'], heq⟩
  · intro b' hb'
    rw [hxw]
    rcases List.mem_cons.mp hb' with rfl | hb'
    · exact foldl_max_init_le _ bs _
    · exact foldl_max_mem_le _ bs _ b' hb'
  · rw [hxw]
    rcases foldl_max_cases (fun box : Box => box.x + box.w) bs (b.x + b.w)
        with heq | ⟨x, hx', heq⟩
    · exact ⟨b, by simp, heq⟩
    · exact ⟨x, by simp [hx'], heq⟩
  · intro b' hb'
    rw [hyh]
    rcases List.mem_cons.mp hb' with rfl | hb'
    · exact foldl_max_init_le _ bs _
    · exact foldl_max_mem_le _ bs _ b' hb'
  · rw [hyh]
    rcases foldl_max_cases (fun box : Box => box.y + box.h) bs (b.y + b.h)
        with heq | ⟨x, hx', heq⟩
    · exact ⟨b, by simp, heq⟩
    · exact ⟨x, by simp [hx'], heq⟩

/-- Witness for C3 at the concrete three-box item. -/
theorem claim_C3_witness :
    ((∀ b ∈ mergeItemEx.boxes, (mergeBoxes mergeItemEx).x ≤ b.x) ∧
      (∃ b ∈ mergeItemEx.boxes, (mergeBoxes mergeItemEx).x = b.x)) ∧
    ((∀ b ∈ mergeItemEx.boxes, (mergeBoxes mergeItemEx).y ≤ b.y) ∧
      (∃ b ∈ mergeItemEx.boxes, (mergeBoxes mergeItemEx).y = b.y)) ∧
    ((∀ b ∈ mergeItemEx.boxes,
        b.x + b.w ≤ (mergeBoxes mergeItemEx).x + (mergeBoxes mergeItemEx).w) ∧
      (∃ b ∈ mergeItemEx.boxes,
        (mergeBoxes mergeItemEx).x + (mergeBoxes mergeItemEx).w = b.x + b.w)) ∧
    ((∀ b ∈ mergeItemEx.boxes,
        b.y + b.h ≤ (mergeBoxes mergeItemEx).y + (mergeBoxes mergeItemEx).h) ∧
      (∃ b ∈ mergeItemEx.boxes,
        (mergeBoxes mergeItemEx).y + (mergeBoxes mergeItemEx).h =
          b.y + b.h)) ∧
    mergeBoxes mergeItemEx =
      ⟨some PiiType.EMAIL, "x".toList, 0, 0, 70, 10, true, false⟩ :=
  claim_C3_merge_boxes mergeItemEx (by decide)

/-!  ## Claim C4: URL query-parameter policy -/

/-- C4: whenever the policy output at index `i` is a region of type URL,
its `selected` flag equals the parallel item's `has_query_params` when the
template flag is on and `true` when it is off; concretely a detected URL
containing `?` ends selected and one without ends deselected under the
flag, and both end selected without it. -/
theorem claim_C4_url_policy (detections : List DetectedItem)
    (template : RedactionTemplate) (i : Nat) (r : Region)
    (item : DetectedItem)
    (hr : (applyTemplatePolicy detections template).get? i = some r)
    (hi : detections.get? i = some item)
    (hurl : r.pii_type = some PiiType.URL) :
    r.selected =
      (if template.url_flag_query_params then item.has_query_params
       else true) ∧
    ((applyTemplatePolicy (detectPii pmNone fcNone [urlTokQ] none [])
        ⟨true⟩).map Region.selected = [true]) ∧
    ((applyTemplatePolicy (detectPii pmNone fcNone [urlTokP] none [])
        ⟨true⟩).map Region.selected = [false]) ∧
    ((applyTemplatePolicy (detectPii pmNone fcNone [urlTokQ] none [])
        ⟨false⟩).map Region.selected = [true]) ∧
    ((applyTemplatePolicy (detectPii pmNone fcNone [urlTokP] none [])
        ⟨false⟩).map Region.selected = [true]) := by
  refine ⟨?_, by decide, by decide, by decide, by decide⟩
  unfold applyTemplatePolicy at hr
  obtain ⟨reg0, item0, _, hitem0, hrfn⟩ := get?_zipWith_eq_some hr
  have heq : item0 = item :=
    (Option.some.inj (hi.symm.trans hitem0)).symm
  rw [heq] at hrfn
  by_cases hty : reg0.pii_type = some PiiType.URL
  · rw [hrfn]
    simp only [hty, if_pos rfl]
    cases hflag : template.url_flag_query_params <;>
      cases hqp : item.has_query_params <;>
        simp [hflag, hqp]
  · rw [hrfn] at hurl ⊢
    simp only [if_neg hty] at hurl
    exact absurd hurl hty

/-- Witness for C4 at the query-bearing URL token with the flag on. -/
theorem claim_C4_witness :
    (Region.mk (some PiiType.URL) "http://a.com?x=1".toList 0 0 80 10 true
        false).selected =
      (if (RedactionTemplate.mk true).url_flag_query_params then
        (DetectedItem.mk PiiType.URL "http://a.com?x=1".toList
          [Box.mk 0 0 80 10] true).has_query_params
       else true) ∧
    ((applyTemplatePolicy (detectPii pmNone fcNone [urlTokQ] none [])
        ⟨true⟩).map Region.selected = [true]) ∧
    ((applyTemplatePolicy (detectPii pmNone fcNone [urlTokP] none [])
        ⟨true⟩).map Region.selected = [false]) ∧
    ((applyTemplatePolicy (detectPii pmNone fcNone [urlTokQ] none [])
        ⟨false⟩).map Region.selected = [true]) ∧
    ((applyTemplatePolicy (detectPii pmNone fcNone [urlTokP] none [])
        ⟨false⟩).map Region.selected = [true]) :=
  claim_C4_url_policy (detectPii pmNone fcNone [urlTokQ] none [])
    (RedactionTemplate.mk true) 0
    (Region.mk (some PiiType.URL) "http://a.com?x=1".toList 0 0 80 10 true
      false)
    (DetectedItem.mk PiiType.URL "http://a.com?x=1".toList
      [Box.mk 0 0 80 10] true)
    (by decide) (by decide) (by decide)

/-!  ## Claim C10: detectors never emit zero-box items -/

theorem detectEmails_boxes {text : List Char} {ctt : List (Option Nat)}
    {tokens : List OcrToken} {ignE ignD : List (List Char)}
    {item : DetectedItem} (h : item ∈ detectEmails text ctt tokens ignE ignD) :
    item.boxes ≠ [] := by
  obtain ⟨se, _, hf⟩ := List.mem_filterMap.mp h
  dsimp only at hf
  split at hf
  · exact absurd hf (by simp)
  · split at hf
    · exact absurd hf (by simp)
    · rw [← Option.some.inj hf]
      assumption

theorem detectIps_boxes {text : List Char} {ctt : List (Option Nat)}
    {tokens : List OcrToken} {item : DetectedItem}
    (h : item ∈ detectIps text ctt tokens) : item.boxes ≠ [] := by
  obtain ⟨se, _, hf⟩ := List.mem_filterMap.mp h
  dsimp only at hf
  split at hf
  · exact absurd hf (by simp)
  · rw [← Option.some.inj hf]
    assumption

theorem detectUrls_boxes {text : List Char} {ctt : List (Option Nat)}
    {tokens : List OcrToken} {item : DetectedItem}
    (h : item ∈ detectUrls text ctt tokens) : item.boxes ≠ [] := by
  obtain ⟨se, _, hf⟩ := List.mem_filterMap.mp h
  dsimp only at hf
  split at hf
  · exact absurd hf (by simp)
  · rw [← Option.some.inj hf]
    assumption

theorem detectDomains_boxes {text : List Char} {ctt : List (Option Nat)}
    {tokens : List OcrToken} {excl : List DetectedItem}
    {ignD : List (List Char)} {item : DetectedItem}
    (h : item ∈ detectDomains text ctt tokens excl ignD) :
    item.boxes ≠ [] := by
  obtain ⟨se, _, hf⟩ := List.mem_filterMap.mp h
  dsimp only at hf
  split at hf
  · exact absurd hf (by simp)
  · rw [← Option.some.inj hf]
    assumption

theorem phoneLoop_boxes {ctt : List (Option Nat)} {tokens : List OcrToken} :
    ∀ {ms seen : List PhoneKey} {k : PhoneKey} {item : DetectedItem},
      (k, item) ∈ phoneLoop ctt tokens ms seen → item.boxes ≠ [] := by
  intro ms
  induction ms with
  | nil => intro seen k item h; simp [phoneLoop] at h
  | cons m ms ih =>
    intro seen k item h
    unfold phoneLoop at h
    split at h
    · exact ih h
    · dsimp only at h
      split at h
      · exact ih h
      · rcases List.mem_cons.mp h with heq | h
        · have : item = ⟨PiiType.PHONE, m.1,
              tokensForMatch m.2.1 m.2.2 ctt tokens, false⟩ :=
            congrArg Prod.snd heq
          rw [this]
          assumption
        · exact ih h

theorem detectPhones_boxes {pm : List Char → Option (List Char) → List PhoneKey}
    {text : List Char} {ctt : List (Option Nat)} {tokens : List OcrToken}
    {item : DetectedItem} (h : item ∈ detectPhones pm text ctt tokens) :
    item.boxes ≠ [] := by
  obtain ⟨⟨k, it⟩, hmem, heq⟩ := List.mem_map.mp h
  rw [← heq]
  exact phoneLoop_boxes hmem

theorem detectCustom_boxes
    {fc : List Char → List Char → List (Nat × Nat)} {text : List Char}
    {ctt : List (Option Nat)} {tokens : List OcrToken}
    {rules : List CustomRule} {item : DetectedItem}
    (h : item ∈ detectCustom fc text ctt tokens rules) : item.boxes ≠ [] := by
  obtain ⟨rule, _, hmem⟩ := List.mem_flatMap.mp h
  split at hmem
  · simp at hmem
  · obtain ⟨se, _, hf⟩ := List.mem_filterMap.mp hmem
    dsimp only at hf
    split at hf
    · exact absurd hf (by simp)
    · rw [← Option.some.inj hf]
      assumption

/-- C10: every item returned by `detect_pii` has a non-empty boxes list
(each detector drops matches that resolve to zero contributing tokens),
so the empty-boxes fallback of `merge_boxes` is unreachable on
`detect_pii` output. -/
theorem claim_C10_nonempty_boxes
    (pm : List Char → Option (List Char) → List PhoneKey)
    (fc : List Char → List Char → List (Nat × Nat))
    (tokens : List OcrToken) (il : Option TemplateIgnore)
    (rules : List CustomRule) (item : DetectedItem)
    (h : item ∈ detectPii pm fc tokens il rules) : item.boxes ≠ [] := by
  unfold detectPii at h
  split at h
  · simp at h
  · dsimp only at h
    rcases List.mem_append.mp h with h123 | h6
    · rcases List.mem_append.mp h123 with h12 | h5
      · rcases List.mem_append.mp h12 with hbase | h4
        · rcases List.mem_append.mp hbase with hbase2 | h3
          · rcases List.mem_append.mp hbase2 with h1 | h2
            · exact detectEmails_boxes h1
            · exact detectIps_boxes h2
          · exact detectUrls_boxes h3
        · exact detectDomains_boxes h4
      · exact detectPhones_boxes h5
    · exact detectCustom_boxes h6

/-- Witness for C10 at the email item detected on a `bob@example.com`
token. -/
theorem claim_C10_witness :
    (DetectedItem.mk PiiType.EMAIL "bob@example.com".toList
      [Box.mk 5 7 90 12] false).boxes ≠ [] :=
  claim_C10_nonempty_boxes pmNone fcNone [bobTok] none []
    (DetectedItem.mk PiiType.EMAIL "bob@example.com".toList
      [Box.mk 5 7 90 12] false)
    (by decide)

/-!  ## Claim C8: phone de-duplication across region passes -/

theorem phoneLoop_spec {ctt : List (Option Nat)} {tokens : List OcrToken} :
    ∀ (ms seen : List PhoneKey),
      ((phoneLoop ctt tokens ms seen).map Prod.fst).Nodup ∧
      (∀ key : PhoneKey,
        key ∈ (phoneLoop ctt tokens ms seen).map Prod.fst ↔
          (key ∉ seen ∧ key ∈ ms ∧
            tokensForMatch key.2.1 key.2.2 ctt tokens ≠ [])) := by
  intro ms
  induction ms with
  | nil =>
    intro seen
    constructor
    · simp [phoneLoop]
    · intro key
      simp [phoneLoop]
  | cons m ms ih =>
    intro seen
    unfold phoneLoop
    split
    · rename_i hseen
      refine ⟨(ih seen).1, fun key => ?_⟩
      rw [(ih seen).2 key]
      constructor
      · rintro ⟨h1, h2, h3⟩
        exact ⟨h1, List.mem_cons_of_mem m h2, h3⟩
      · rintro ⟨h1, h2, h3⟩
        rcases List.mem_cons.mp h2 with rfl | h2
        · exact absurd hseen h1
        · exact ⟨h1, h2, h3⟩
    · rename_i hseen
      dsimp only
      split
      · rename_i hempty
        refine ⟨(ih (m :: seen)).1, fun key => ?_⟩
        rw [(ih (m :: seen)).2 key]
        constructor
        · rintro ⟨h1, h2, h3⟩
          refine ⟨fun hk => h1 (List.mem_cons_of_mem m hk),
            List.mem_cons_of_mem m h2, h3⟩
        · rintro ⟨h1, h2, h3⟩
          rcases List.mem_cons.mp h2 with rfl | h2
          · exact absurd hempty h3
          · refine ⟨fun hk => ?_, h2, h3⟩
            rcases List.mem_cons.mp hk with rfl | hk
            · exact absurd hempty h3
            · exact h1 hk
      · rename_i hempty
        constructor
        · rw [List.map_cons]
          refine List.nodup_cons.mpr ⟨fun hmem => ?_, (ih (m :: seen)).1⟩
          have := ((ih (m :: seen)).2 m).mp hmem
          exact this.1 (List.mem_cons_self m seen)
        · intro key
          rw [List.map_cons, List.mem_cons, (ih (m :: seen)).2 key]
          constructor
          · rintro (rfl | ⟨h1, h2, h3⟩)
            · exact ⟨hseen, by simp, hempty⟩
            · refine ⟨fun hk => h1 (List.mem_cons_of_mem m hk),
                List.mem_cons_of_mem m h2, h3⟩
          · rintro ⟨h1, h2, h3⟩
            by_cases hkm : key = m
            · exact Or.inl hkm
            · rcases List.mem_cons.mp h2 with rfl | h2
              · exact absurd rfl hkm
              · exact Or.inr ⟨fun hk => by
                  rcases List.mem_cons.mp hk with h | h
                  · exact hkm h
                  · exact h1 h, h2, h3⟩

/-- C8: across the region-hint passes the phone detector emits each
(text, start, end) key at most once, a key is emitted exactly when some
pass yields it and it resolves to at least one box (so equal text at
distinct offsets gives distinct detections); concretely, two tokens both
reading `555-123-4567` at different positions yield exactly two PHONE
items with different box sets. -/
theorem claim_C8_phone_dedup
    (pm : List Char → Option (List Char) → List PhoneKey)
    (text : List Char) (ctt : List (Option Nat)) (tokens : List OcrToken) :
    ((detectPhonesKeyed pm text ctt tokens).map Prod.fst).Nodup ∧
    (∀ key : PhoneKey,
      key ∈ (detectPhonesKeyed pm text ctt tokens).map Prod.fst ↔
        (key ∈ (phoneRegions.map (pm text)).flatten ∧
          tokensForMatch key.2.1 key.2.2 ctt tokens ≠ [])) ∧
    detectPhones pmTwo (buildTextAndMapping [phoneTokA, phoneTokB]).1
        (buildTextAndMapping [phoneTokA, phoneTokB]).2
        [phoneTokA, phoneTokB] =
      [⟨PiiType.PHONE, phoneText, [Box.mk 0 0 100 20], false⟩,
        ⟨PiiType.PHONE, phoneText, [Box.mk 0 40 100 20], false⟩] ∧
    ([Box.mk 0 0 100 20] : List Box) ≠ [Box.mk 0 40 100 20] := by
  refine ⟨(phoneLoop_spec _ []).1, fun key => ?_, by decide, by decide⟩
  unfold detectPhonesKeyed
  rw [(phoneLoop_spec ((phoneRegions.map (pm text)).flatten) []).2 key]
  constructor
  · rintro ⟨_, h2, h3⟩
    exact ⟨h2, h3⟩
  · rintro ⟨h2, h3⟩
    exact ⟨by simp, h2, h3⟩

/-- Witness for C8 at the duplicate-text, distinct-position fixture. -/
theorem claim_C8_witness :
    ((detectPhonesKeyed pmTwo (buildTextAndMapping [phoneTokA, phoneTokB]).1
        (buildTextAndMapping [phoneTokA, phoneTokB]).2
        [phoneTokA, phoneTokB]).map Prod.fst).Nodup ∧
    ((phoneText, 0, 12) ∈
      (detectPhonesKeyed pmTwo (buildTextAndMapping [phoneTokA, phoneTokB]).1
        (buildTextAndMapping [phoneTokA, phoneTokB]).2
        [phoneTokA, phoneTokB]).map Prod.fst ↔
        ((phoneText, 0, 12) ∈
          (phoneRegions.map
            (pmTwo (buildTextAndMapping [phoneTokA, phoneTokB]).1)).flatten ∧
          tokensForMatch 0 12 (buildTextAndMapping [phoneTokA, phoneTokB]).2
            [phoneTokA, phoneTokB] ≠ [])) := by
  have h := claim_C8_phone_dedup pmTwo
    (buildTextAndMapping [phoneTokA, phoneTokB]).1
    (buildTextAndMapping [phoneTokA, phoneTokB]).2
    [phoneTokA, phoneTokB]
  exact ⟨h.1, h.2.1 (phoneText, 0, 12)⟩

/-!  ## Claim C2: domain overlap exclusion -/

theorem scanAux_mem_lt {matchAt : List Char → Nat → Option Nat}
    {text : List Char} :
    ∀ {fuel i s e : Nat}, (s, e) ∈ scanAux matchAt text fuel i → s < e := by
  intro fuel
  induction fuel with
  | zero => intro i s e h; simp [scanAux] at h
  | succ fuel ih =>
    intro i s e h
    unfold scanAux at h
    split at h
    · simp at h
    · rcases hm : matchAt text i with _ | v
      · simp only [hm] at h
        exact ih h
      · simp only [hm] at h
        split at h
        · rcases List.mem_cons.mp h with heq | h
          · have hs : s = i := congrArg Prod.fst heq
            have he : e = v := congrArg Prod.snd heq
            omega
          · exact ih h
        · exact ih h

/-- Counterexample to C2 as stated: on the assembled text
`_www./ab.www./ab.www./` the URL detector finds exactly the match with
span `(9, 22)`, yet the domain detector keeps the span `(14, 20)` — and
emits the DOMAIN item `ab.www` for it — although the two spans overlap.
The exclusion re-scan of the URL's text finds only the shifted occurrence
at `(1, 14)`, leaving the tail of the real match span uncovered. -/
theorem claim_C2_counterexample :
    findMatches matchURLAt (asmText cexTok) = [(9, 22)] ∧
    (detectUrls (asmText cexTok) (asmCtt cexTok) [cexTok]).map
        DetectedItem.text = [slice (asmText cexTok) 9 22] ∧
    domainKeptSpans (asmText cexTok) cexBase [] = [(14, 20)] ∧
    (detectDomains (asmText cexTok) (asmCtt cexTok) [cexTok] cexBase
        []).map DetectedItem.text = ["ab.www".toList] ∧
    (14 < 22 ∧ 9 < 20) := by
  decide

/-- C2 (amended): every DOMAIN item the domain detector emits comes from
a kept span, and a kept span never overlaps — even at a single index —
any occurrence, found by the non-overlapping literal re-scan of the
assembled text, of the text of any excluded EMAIL/URL/IP item (original
match spans are only protected when the re-scan covers them); in
particular `bob@example.com` yields no DOMAIN detection. -/
theorem claim_C2_domain_exclusion (text : List Char)
    (excl : List DetectedItem) (ignD : List (List Char)) (s e : Nat)
    (hkept : (s, e) ∈ domainKeptSpans text excl ignD) (item : DetectedItem)
    (hitem : item ∈ excl) (os oe : Nat)
    (hocc : (os, oe) ∈ findMatches (matchLitAt item.text) text) :
    (oe ≤ s ∨ e ≤ os) ∧
    (∀ (ctt : List (Option Nat)) (tokens : List OcrToken)
        (it : DetectedItem), it ∈ detectDomains text ctt tokens excl ignD →
      ∃ se ∈ domainKeptSpans text excl ignD,
        it = ⟨PiiType.DOMAIN, slice text se.1 se.2,
          tokensForMatch se.1 se.2 ctt tokens, false⟩) ∧
    (detectPii pmNone fcNone [bobTok] none []).filter
        (fun it => decide (it.pii_type = PiiType.DOMAIN)) = [] := by
  refine ⟨?_, ?_, by decide⟩
  · unfold domainKeptSpans at hkept
    have hmem := List.mem_filter.mp hkept
    have hno := (Bool.and_eq_true _ _).mp hmem.2 |>.2
    have hall : ∀ x ∈ List.range' s (e - s),
        ¬ inExcluded excl text x = true :=
      List.any_eq_false.mp (by simpa using hno)
    have hlt : s < e := scanAux_mem_lt hmem.1
    have holt : os < oe := scanAux_mem_lt hocc
    by_contra hcon
    push_neg at hcon
    obtain ⟨h1, h2⟩ := hcon
    have hi : max s os ∈ List.range' s (e - s) :=
      List.mem_range'_1.mpr ⟨le_max_left _ _, by omega⟩
    refine hall (max s os) hi ?_
    unfold inExcluded
    refine List.any_eq_true.mpr ⟨item, hitem, ?_⟩
    refine List.any_eq_true.mpr ⟨(os, oe), hocc, ?_⟩
    simp only [Bool.and_eq_true, decide_eq_true_eq]
    omega
  · intro ctt tokens it hmem
    obtain ⟨se, hse, hf⟩ := List.mem_filterMap.mp hmem
    dsimp only at hf
    split at hf
    · exact absurd hf (by simp)
    · exact ⟨se, hse, (Option.some.inj hf).symm⟩

/-- Witness for C2 (amended) on the counterexample fixture: the kept
span `(14, 20)` indeed avoids the re-scanned occurrence `(1, 14)` of the
URL's text. -/
theorem claim_C2_witness :
    ((14 : Nat) ≤ 14 ∨ (20 : Nat) ≤ 1) ∧
    (∀ (ctt : List (Option Nat)) (tokens : List OcrToken)
        (it : DetectedItem),
      it ∈ detectDomains (asmText cexTok) ctt tokens cexBase [] →
      ∃ se ∈ domainKeptSpans (asmText cexTok) cexBase [],
        it = ⟨PiiType.DOMAIN, slice (asmText cexTok) se.1 se.2,
          tokensForMatch se.1 se.2 ctt tokens, false⟩) ∧
    (detectPii pmNone fcNone [bobTok] none []).filter
        (fun it => decide (it.pii_type = PiiType.DOMAIN)) = [] := by
  have h := claim_C2_domain_exclusion (asmText cexTok) cexBase [] 14 20
    (by decide)
    (DetectedItem.mk PiiType.URL ("www./ab.www./".toList)
      [Box.mk 0 0 100 10] false)
    (by decide) 1 14 (by decide)
  exact h

/-!  ## Claim C9: shape of emitted email matches -/

theorem emailTldLoop_sound {text : List Char} {pos : Nat} :
    ∀ {n e : Nat}, emailTldLoop text pos n = some e →
      ∃ tl, 2 ≤ tl ∧ tl ≤ n ∧ e = pos + tl := by
  intro n
  induction n with
  | zero => intro e h; simp [emailTldLoop] at h
  | succ n ih =>
    intro e h
    cases n with
    | zero => simp [emailTldLoop] at h
    | succ m =>
      unfold emailTldLoop at h
      split at h
      · exact ⟨m + 2, by omega, le_refl _, (Option.some.inj h).symm⟩
      · obtain ⟨tl, h2, h3, h4⟩ := ih h
        exact ⟨tl, h2, by omega, h4⟩

theorem emailDomLoop_sound {text : List Char} {j0 : Nat} :
    ∀ {k e : Nat}, emailDomLoop text j0 k = some e →
      ∃ k' tl, 1 ≤ k' ∧ k' ≤ k ∧ charAt text (j0 + k') = some '.' ∧
        2 ≤ tl ∧ tl ≤ runFrom isTldC text (j0 + k' + 1) ∧
        e = j0 + k' + 1 + tl := by
  intro k
  induction k with
  | zero => intro e h; simp [emailDomLoop] at h
  | succ k ih =>
    intro e h
    unfold emailDomLoop at h
    split at h
    · rename_i hdot
      rcases htl : emailTldLoop text (j0 + k + 2)
          (runFrom isTldC text (j0 + k + 2)) with _ | v
      · rw [htl] at h
        obtain ⟨k', tl, h1, h2, h3, h4, h5, h6⟩ := ih h
        exact ⟨k', tl, h1, by omega, h3, h4, h5, h6⟩
      · rw [htl] at h
        obtain ⟨tl, h4, h5, h6⟩ := emailTldLoop_sound htl
        refine ⟨k + 1, tl, by omega, le_refl _, by
          simpa [Nat.add_assoc] using hdot, h4, ?_, ?_⟩
        · simpa [Nat.add_assoc] using h5
        · rw [← Option.some.inj h, h6]
          omega
    · obtain ⟨k', tl, h1, h2, h3, h4, h5, h6⟩ := ih h
      exact ⟨k', tl, h1, by omega, h3, h4, h5, h6⟩

theorem matchEmailAt_sound {text : List Char} {i e : Nat}
    (h : matchEmailAt text i = some e) :
    ∃ k' tl, 1 ≤ runFrom isLocalC text i ∧
      charAt text (i + runFrom isLocalC text i) = some '@' ∧
      1 ≤ k' ∧ k' + 1 ≤ runFrom isDomC text (i + runFrom isLocalC text i + 1) ∧
      charAt text (i + runFrom isLocalC text i + 1 + k') = some '.' ∧
      2 ≤ tl ∧
      tl ≤ runFrom isTldC text (i + runFrom isLocalC text i + 1 + k' + 1) ∧
      e = i + runFrom isLocalC text i + 1 + k' + 1 + tl := by
  unfold matchEmailAt at h
  split at h
  · dsimp only at h
    split at h
    · exact absurd h (by simp)
    · split at h
      · rename_i hr1 hat
        obtain ⟨k', tl, h1, h2, h3, h4, h5, h6⟩ := emailDomLoop_sound h
        have hk'd : k' + 1 ≤
            runFrom isDomC text (i + runFrom isLocalC text i + 1) := by
          omega
        exact ⟨k', tl, by omega, hat, h1, hk'd, h3, h4, h5, h6⟩
      · exact absurd h (by simp)
  · exact absurd h (by simp)

theorem charAt_lt_length {text : List Char} {i : Nat} {c : Char}
    (h : charAt text i = some c) : i < text.length := by
  unfold charAt at h
  exact (List.get?_eq_some.mp h).1

theorem takeWhile_all_eq {p : Char → Bool} :
    ∀ {l : List Char}, (∀ c ∈ l, p c = true) → l.takeWhile p = l := by
  intro l
  induction l with
  | nil => intro _; rfl
  | cons a l ih =>
    intro h
    rw [List.takeWhile_cons, h a (by simp), ih fun c hc => h c (by simp [hc])]
    simp

theorem afterLastDot_append {xs t : List Char}
    (ht : ∀ c ∈ t, c ≠ '.') :
    afterLastDot (xs ++ '.' :: t) = t := by
  unfold afterLastDot
  rw [List.reverse_append, List.reverse_cons]
  have hrev : ∀ c ∈ t.reverse, (fun c => decide (c ≠ '.')) c = true := by
    intro c hc
    simp only [decide_eq_true_eq]
    exact ht c (List.mem_reverse.mp hc)
  rw [List.append_assoc]
  rw [List.takeWhile_append]
  rw [takeWhile_all_eq hrev]
  simp

/-- C9 (amended): every match emitted by the email detector has the form
`local@domainpart.tld` with a non-empty local part over
`[A-Za-z0-9._%+-]`, a non-empty part over `[A-Za-z0-9.-]` before the
final dot, and a final segment of at least two characters over the class
`[A-Z|a-z]` — ASCII letters or a literal `|`; the characters after the
final dot of the match are exactly that segment (so they are letters or
`|`, not necessarily letters only). -/
theorem claim_C9_email_shape (text : List Char) (ctt : List (Option Nat))
    (tokens : List OcrToken) (ignE ignD : List (List Char))
    (item : DetectedItem) (h : item ∈ detectEmails text ctt tokens ignE ignD) :
    ∃ l d t, item.text = l ++ '@' :: (d ++ '.' :: t) ∧
      l ≠ [] ∧ (∀ c ∈ l, isLocalC c = true) ∧
      d ≠ [] ∧ (∀ c ∈ d, isDomC c = true) ∧
      2 ≤ t.length ∧ (∀ c ∈ t, isTldC c = true) ∧
      afterLastDot item.text = t := by
  obtain ⟨se, hse, hf⟩ := List.mem_filterMap.mp h
  dsimp only at hf
  have htext : item.text = slice text se.1 se.2 := by
    split at hf
    · exact absurd hf (by simp)
    · split at hf
      · exact absurd hf (by simp)
      · rw [← Option.some.inj hf]
  have hm := mem_findMatches (s := se.1) (e := se.2) (by
    rcases se with ⟨s, e⟩; exact hse)
  obtain ⟨k', tl, hr1, hat, hk1, hkd, hdot, htl2, htlr, he⟩ :=
    matchEmailAt_sound hm
  set s := se.1 with hs
  set r1 := runFrom isLocalC text s with hr1def
  have hslen : s + r1 < text.length := charAt_lt_length hat
  have hdlen : s + r1 + 1 + k' < text.length := charAt_lt_length hdot
  have htllen : runFrom isTldC text (s + r1 + 1 + k' + 1) ≤
      text.length - (s + r1 + 1 + k' + 1) := runFrom_le
  have hdecomp : item.text = slice text s (s + r1) ++
      '@' :: (slice text (s + r1 + 1) (s + r1 + 1 + k') ++
        '.' :: slice text (s + r1 + 1 + k' + 1) se.2) := by
    have hA : slice text s (s + r1) ++ slice text (s + r1) (s + r1 + 1) =
        slice text s (s + r1 + 1) := slice_append (by omega) (by omega)
    have hB : slice text s (s + r1 + 1) ++
        slice text (s + r1 + 1) (s + r1 + 1 + k') =
        slice text s (s + r1 + 1 + k') := slice_append (by omega) (by omega)
    have hC : slice text s (s + r1 + 1 + k') ++
        slice text (s + r1 + 1 + k') (s + r1 + 1 + k' + 1) =
        slice text s (s + r1 + 1 + k' + 1) :=
      slice_append (by omega) (by omega)
    have hD : slice text s (s + r1 + 1 + k' + 1) ++
        slice text (s + r1 + 1 + k' + 1) se.2 = slice text s se.2 :=
      slice_append (by omega) (by omega)
    rw [htext, ← hD, ← hC, ← hB, ← hA, slice_one hat, slice_one hdot]
    simp [List.append_assoc]
  have htall : ∀ c ∈ slice text (s + r1 + 1 + k' + 1) se.2,
      isTldC c = true := by
    rw [he]
    exact slice_all_of_run htlr
  refine ⟨slice text s (s + r1),
    slice text (s + r1 + 1) (s + r1 + 1 + k'),
    slice text (s + r1 + 1 + k' + 1) se.2,
    hdecomp, ?_, slice_all_of_run (le_refl r1), ?_, ?_, ?_, htall, ?_⟩
  · have hlen : 0 < (slice text s (s + r1)).length := by
      rw [slice_length]
      omega
    exact List.ne_nil_of_length_pos hlen
  · have hlen : 0 < (slice text (s + r1 + 1) (s + r1 + 1 + k')).length := by
      rw [slice_length]
      omega
    exact List.ne_nil_of_length_pos hlen
  · have hrun : k' ≤ runFrom isDomC text (s + r1 + 1) := by omega
    exact slice_all_of_run hrun
  · rw [slice_length]
    omega
  · have hne : ∀ c ∈ slice text (s + r1 + 1 + k' + 1) se.2, c ≠ '.' := by
      intro c hc heq
      have := htall c hc
      rw [heq] at this
      exact absurd this (by decide)
    rw [hdecomp]
    have hassoc : slice text s (s + r1) ++
        '@' :: (slice text (s + r1 + 1) (s + r1 + 1 + k') ++
          '.' :: slice text (s + r1 + 1 + k' + 1) se.2) =
        (slice text s (s + r1) ++
          '@' :: slice text (s + r1 + 1) (s + r1 + 1 + k')) ++
          '.' :: slice text (s + r1 + 1 + k' + 1) se.2 := by
      simp
    rw [hassoc]
    exact afterLastDot_append hne

/-- Witness for C9 (amended) at the `bob@example.com` token. -/
theorem claim_C9_witness :
    ∃ l d t,
      (DetectedItem.mk PiiType.EMAIL "bob@example.com".toList
        [Box.mk 5 7 90 12] false).text = l ++ '@' :: (d ++ '.' :: t) ∧
      l ≠ [] ∧ (∀ c ∈ l, isLocalC c = true) ∧
      d ≠ [] ∧ (∀ c ∈ d, isDomC c = true) ∧
      2 ≤ t.length ∧ (∀ c ∈ t, isTldC c = true) ∧
      afterLastDot (DetectedItem.mk PiiType.EMAIL "bob@example.com".toList
        [Box.mk 5 7 90 12] false).text = t :=
  claim_C9_email_shape (asmText bobTok) (asmCtt bobTok) [bobTok] [] []
    (DetectedItem.mk PiiType.EMAIL "bob@example.com".toList
      [Box.mk 5 7 90 12] false)
    (by decide)

/-- Counterexample to C9 as stated: the email detector emits the match
`a@b.c|d` (the TLD class `[A-Z|a-z]` contains a literal `|`), whose
characters after the final dot are `c|d` — not all ASCII letters. -/
theorem claim_C9_counterexample :
    (detectEmails (asmText barTok) (asmCtt barTok) [barTok] [] []).map
        DetectedItem.text = ["a@b.c|d".toList] ∧
    afterLastDot "a@b.c|d".toList = "c|d".toList ∧
    ¬ (∀ c ∈ afterLastDot "a@b.c|d".toList, isAlphaC c = true) := by
  refine ⟨by decide, by decide, ?_⟩
  intro hall
  have h := hall '|' (by decide)
  exact absurd h (by decide)

/-!  ## Claim C1: IPv4 octet validation -/

theorem testAt_true {p : Char → Bool} {text : List Char} {i : Nat}
    (h : testAt p text i = true) :
    ∃ c, charAt text i = some c ∧ p c = true := by
  unfold testAt at h
  cases hc : charAt text i with
  | none => rw [hc] at h; simp at h
  | some c => rw [hc] at h; exact ⟨c, rfl, h⟩

theorem slice_two {text : List Char} {pos : Nat} {a b : Char}
    (h0 : charAt text pos = some a) (h1 : charAt text (pos + 1) = some b) :
    slice text pos (pos + 2) = [a, b] := by
  have hs : slice text pos (pos + 1) ++ slice text (pos + 1) (pos + 2) =
      slice text pos (pos + 2) := slice_append (by omega) (by omega)
  rw [← hs, slice_one h0]
  have h1' : slice text (pos + 1) (pos + 1 + 1) = [b] := slice_one h1
  have harg : pos + 1 + 1 = pos + 2 := by omega
  rw [harg] at h1'
  rw [h1']
  rfl

theorem slice_three {text : List Char} {pos : Nat} {a b c : Char}
    (h0 : charAt text pos = some a) (h1 : charAt text (pos + 1) = some b)
    (h2 : charAt text (pos + 2) = some c) :
    slice text pos (pos + 3) = [a, b, c] := by
  have hs : slice text pos (pos + 2) ++ slice text (pos + 2) (pos + 3) =
      slice text pos (pos + 3) := slice_append (by omega) (by omega)
  rw [← hs, slice_two h0 h1]
  have h2' : slice text (pos + 2) (pos + 2 + 1) = [c] := slice_one h2
  have harg : pos + 2 + 1 = pos + 3 := by omega
  rw [harg] at h2'
  rw [h2']
  rfl

theorem octetOk_one {a : Char} (ha : 48 ≤ a.toNat ∧ a.toNat ≤ 57) :
    octetOk [a] = true := by
  unfold octetOk isDigitC
  simp only [List.isEmpty_cons, Bool.not_false, List.all_cons, List.all_nil,
    Bool.and_true, Bool.true_and, Bool.and_eq_true, decide_eq_true_eq]
  unfold digitsVal
  simp only [List.foldl]
  omega

theorem octetOk_two {a b : Char} (ha : 48 ≤ a.toNat ∧ a.toNat ≤ 57)
    (hb : 48 ≤ b.toNat ∧ b.toNat ≤ 57) : octetOk [a, b] = true := by
  unfold octetOk isDigitC
  simp only [List.isEmpty_cons, Bool.not_false, List.all_cons, List.all_nil,
    Bool.and_true, Bool.true_and, Bool.and_eq_true, decide_eq_true_eq]
  unfold digitsVal
  simp only [List.foldl]
  omega

theorem octetOk_three {a b c : Char} (ha : 48 ≤ a.toNat ∧ a.toNat ≤ 57)
    (hb : 48 ≤ b.toNat ∧ b.toNat ≤ 57) (hc : 48 ≤ c.toNat ∧ c.toNat ≤ 57)
    (hval : 100 * (a.toNat - 48) + 10 * (b.toNat - 48) + (c.toNat - 48) ≤
      255) : octetOk [a, b, c] = true := by
  unfold octetOk isDigitC
  simp only [List.isEmpty_cons, Bool.not_false, List.all_cons, List.all_nil,
    Bool.and_true, Bool.true_and, Bool.and_eq_true, decide_eq_true_eq]
  unfold digitsVal
  simp only [List.foldl]
  omega

theorem octetLens_sound {text : List Char} {pos l : Nat}
    (hmem : l ∈ octetLens text pos) :
    1 ≤ l ∧ octetOk (slice text pos (pos + l)) = true := by
  unfold octetLens at hmem
  dsimp only at hmem
  rcases List.mem_append.mp hmem with h12 | h3
  · rcases List.mem_append.mp h12 with h1 | h2
    · split at h1
      · rename_i hcond
        rw [Bool.and_eq_true, Bool.and_eq_true] at hcond
        obtain ⟨⟨hc0, hc1⟩, hc2⟩ := hcond
        obtain ⟨a, ha, hpa⟩ := testAt_true hc0
        obtain ⟨b, hb, hpb⟩ := testAt_true hc1
        obtain ⟨c, hc, hpc⟩ := testAt_true hc2
        have hl : l = 3 := by simpa using h1
        subst hl
        rw [slice_three ha hb hc]
        simp only [Bool.and_eq_true, decide_eq_true_eq] at hpa hpb hpc
        refine ⟨by omega, octetOk_three ?_ ?_ ?_ ?_⟩ <;> omega
      · simp at h1
    · split at h2
      · rename_i hcond
        rw [Bool.and_eq_true, Bool.and_eq_true] at hcond
        obtain ⟨⟨hc0, hc1⟩, hc2⟩ := hcond
        obtain ⟨a, ha, hpa⟩ := testAt_true hc0
        obtain ⟨b, hb, hpb⟩ := testAt_true hc1
        obtain ⟨c, hc, hpc⟩ := testAt_true hc2
        have hl : l = 3 := by simpa using h2
        subst hl
        rw [slice_three ha hb hc]
        simp only [Bool.and_eq_true, decide_eq_true_eq] at hpa hpb
        unfold isDigitC at hpc
        simp only [Bool.and_eq_true, decide_eq_true_eq] at hpc
        refine ⟨by omega, octetOk_three ?_ ?_ ?_ ?_⟩ <;> omega
      · simp at h2
  · split at h3
    · rename_i hcond
      obtain ⟨a, ha, hpa⟩ := testAt_true hcond
      simp only [Bool.or_eq_true, decide_eq_true_eq] at hpa
      rcases List.mem_append.mp h3 with h45 | h6
      · rcases List.mem_append.mp h45 with h4 | h5
        · split at h4
          · rename_i hd1
            obtain ⟨b, hb, hpb⟩ := testAt_true hd1
            unfold isDigitC at hpb
            simp only [Bool.and_eq_true, decide_eq_true_eq] at hpb
            rcases List.mem_append.mp h4 with h7 | h8
            · split at h7
              · rename_i hd2
                obtain ⟨c, hc, hpc⟩ := testAt_true hd2
                unfold isDigitC at hpc
                simp only [Bool.and_eq_true, decide_eq_true_eq] at hpc
                have hl : l = 3 := by simpa using h7
                subst hl
                rw [slice_three ha hb hc]
                refine ⟨by omega, octetOk_three ?_ ?_ ?_ ?_⟩ <;> omega
              · simp at h7
            · have hl : l = 2 := by simpa using h8
              subst hl
              rw [slice_two ha hb]
              refine ⟨by omega, octetOk_two ?_ ?_⟩ <;> omega
          · simp at h4
        · split at h5
          · rename_i hd1
            obtain ⟨b, hb, hpb⟩ := testAt_true hd1
            unfold isDigitC at hpb
            simp only [Bool.and_eq_true, decide_eq_true_eq] at hpb
            have hl : l = 2 := by simpa using h5
            subst hl
            rw [slice_two ha hb]
            refine ⟨by omega, octetOk_two ?_ ?_⟩ <;> omega
          · simp at h5
      · have hl : l = 1 := by simpa using h6
        subst hl
        have h1' : slice text pos (pos + 1) = [a] := slice_one ha
        rw [h1']
        refine ⟨by omega, octetOk_one ?_⟩
        omega
    · split at h3
      · rename_i hd0
        obtain ⟨a, ha, hpa⟩ := testAt_true hd0
        unfold isDigitC at hpa
        simp only [Bool.and_eq_true, decide_eq_true_eq] at hpa
        rcases List.mem_append.mp h3 with h4 | h5
        · split at h4
          · rename_i hd1
            obtain ⟨b, hb, hpb⟩ := testAt_true hd1
            unfold isDigitC at hpb
            simp only [Bool.and_eq_true, decide_eq_true_eq] at hpb
            have hl : l = 2 := by simpa using h4
            subst hl
            rw [slice_two ha hb]
            refine ⟨by omega, octetOk_two ?_ ?_⟩ <;> omega
          · simp at h4
        · have hl : l = 1 := by simpa using h5
          subst hl
          rw [slice_one ha]
          refine ⟨by omega, octetOk_one ?_⟩
          omega
      · simp at h3

theorem matchGroups_sound {text : List Char} :
    ∀ {n pos e : Nat}, 1 ≤ n → matchGroups text n pos = some e →
      ∃ parts : List (List Char), parts.length = n ∧
        (∀ g ∈ parts, octetOk g = true) ∧
        slice text pos e = dotJoin parts ∧ pos < e := by
  intro n
  induction n with
  | zero => intro pos e h1; omega
  | succ n ih =>
    intro pos e _ hmg
    cases n with
    | zero =>
      unfold matchGroups at hmg
      obtain ⟨l, hl, hfl⟩ := firstSome_eq_some hmg
      obtain ⟨hl1, hok⟩ := octetLens_sound hl
      split at hfl
      · have he : e = pos + l := (Option.some.inj hfl).symm
        subst he
        exact ⟨[slice text pos (pos + l)], rfl, by
          intro g hg
          rw [List.mem_singleton.mp hg]
          exact hok, rfl, by omega⟩
      · exact absurd hfl (by simp)
    | succ m =>
      unfold matchGroups at hmg
      obtain ⟨l, hl, hfl⟩ := firstSome_eq_some hmg
      obtain ⟨hl1, hok⟩ := octetLens_sound hl
      split at hfl
      · rename_i hdot
        obtain ⟨parts, hplen, hpok, hpslice, hpe⟩ := ih (by omega) hfl
        rcases parts with _ | ⟨p, ps⟩
        · simp at hplen
        refine ⟨slice text pos (pos + l) :: p :: ps, by simpa using hplen,
          ?_, ?_, by omega⟩
        · intro g hg
          rcases List.mem_cons.mp hg with rfl | hg
          · exact hok
          · exact hpok g hg
        · have hA : slice text pos (pos + l) ++
              slice text (pos + l) (pos + l + 1) =
              slice text pos (pos + l + 1) :=
            slice_append (by omega) (by omega)
          have hB : slice text pos (pos + l + 1) ++
              slice text (pos + l + 1) e = slice text pos e :=
            slice_append (by omega) (by omega)
          rw [← hB, ← hA, slice_one hdot, hpslice]
          simp [dotJoin]
      · exact absurd hfl (by simp)

/-- C1: every item the IPv4 detector emits has text consisting of four
dot-separated digit groups each with value at most 255; tokens
assembling to `192.168.1.256` yield zero IP detections, while tokens
assembling to `192.168.1.1` yield exactly one. -/
theorem claim_C1_ipv4_octets (text : List Char) (ctt : List (Option Nat))
    (tokens : List OcrToken) (item : DetectedItem)
    (h : item ∈ detectIps text ctt tokens) :
    (∃ g1 g2 g3 g4, item.text =
        g1 ++ '.' :: (g2 ++ '.' :: (g3 ++ '.' :: g4)) ∧
      octetOk g1 = true ∧ octetOk g2 = true ∧ octetOk g3 = true ∧
      octetOk g4 = true) ∧
    detectIps (asmText ipTok256) (asmCtt ipTok256) [ipTok256] = [] ∧
    (detectIps (asmText ipTok11) (asmCtt ipTok11) [ipTok11]).length = 1 := by
  refine ⟨?_, by decide, by decide⟩
  obtain ⟨se, hse, hf⟩ := List.mem_filterMap.mp h
  dsimp only at hf
  have htext : item.text = slice text se.1 se.2 := by
    split at hf
    · exact absurd hf (by simp)
    · rw [← Option.some.inj hf]
  have hm := mem_findMatches (s := se.1) (e := se.2) (by
    rcases se with ⟨s, e⟩; exact hse)
  unfold matchIPAt at hm
  split at hm
  · obtain ⟨parts, hplen, hpok, hpslice, _⟩ :=
      matchGroups_sound (by omega) hm
    rcases parts with _ | ⟨g1, _ | ⟨g2, _ | ⟨g3, _ | ⟨g4, rest⟩⟩⟩⟩ <;>
      simp at hplen
    subst hplen
    refine ⟨g1, g2, g3, g4, ?_, hpok g1 (by simp), hpok g2 (by simp),
      hpok g3 (by simp), hpok g4 (by simp)⟩
    rw [htext, hpslice]
    simp [dotJoin]
  · exact absurd hm (by simp)

/-- Witness for C1 at the single detection on `192.168.1.1`. -/
theorem claim_C1_witness :
    (∃ g1 g2 g3 g4,
      (DetectedItem.mk PiiType.IP "192.168.1.1".toList [Box.mk 0 0 50 10]
        false).text = g1 ++ '.' :: (g2 ++ '.' :: (g3 ++ '.' :: g4)) ∧
      octetOk g1 = true ∧ octetOk g2 = true ∧ octetOk g3 = true ∧
      octetOk g4 = true) ∧
    detectIps (asmText ipTok256) (asmCtt ipTok256) [ipTok256] = [] ∧
    (detectIps (asmText ipTok11) (asmCtt ipTok11) [ipTok11]).length = 1 :=
  claim_C1_ipv4_octets (asmText ipTok11) (asmCtt ipTok11) [ipTok11]
    (DetectedItem.mk PiiType.IP "192.168.1.1".toList [Box.mk 0 0 50 10]
      false)
    (by decide)

/-!  ## Claim C5: assembler invariants -/

theorem get?_append_left {α : Type} :
    ∀ (A B : List α) (n : Nat), n < A.length →
      (A ++ B).get? n = A.get? n := by
  intro A
  induction A with
  | nil => intro B n h; simp at h
  | cons a A ih =>
    intro B n h
    cases n with
    | zero => rfl
    | succ m =>
      have := ih B m (by simpa using h)
      simpa using this

theorem get?_append_right' {α : Type} :
    ∀ (A B : List α) (n : Nat), A.length ≤ n →
      (A ++ B).get? n = B.get? (n - A.length) := by
  intro A
  induction A with
  | nil => intro B n _; simp
  | cons a A ih =>
    intro B n h
    cases n with
    | zero => simp at h
    | succ m =>
      have := ih B m (by simpa using h)
      simpa using this

theorem get?_replicate' {α : Type} (a : α) :
    ∀ (n m : Nat), m < n → (List.replicate n a).get? m = some a := by
  intro n
  induction n with
  | zero => intro m h; omega
  | succ n ih =>
    intro m h
    cases m with
    | zero => rfl
    | succ m' =>
      have := ih m' (by omega)
      simpa [List.replicate] using this

theorem sumTextLens_cons (t : OcrToken) (ts : List OcrToken) :
    sumTextLens (t :: ts) = t.text.length + sumTextLens ts := by
  simp [sumTextLens]

theorem tokenStart_cons (t : OcrToken) (ts : List OcrToken) (k : Nat) :
    tokenStart (t :: ts) (k + 1) =
      t.text.length + 1 + tokenStart ts k := by
  simp [tokenStart, List.take_succ_cons]

theorem tokenStart_zero (ts : List OcrToken) : tokenStart ts 0 = 0 := by
  simp [tokenStart]

theorem buildFrom_cons_zero (t : OcrToken) (ts : List OcrToken) :
    buildFrom (t :: ts) 0 =
      (t.text ++ (buildFrom ts 1).1,
       List.replicate t.text.length (some 0) ++ (buildFrom ts 1).2) := by
  simp [buildFrom]

theorem buildFrom_cons_pos (t : OcrToken) (ts : List OcrToken) (i : Nat)
    (hi : i ≠ 0) :
    buildFrom (t :: ts) i =
      (' ' :: (t.text ++ (buildFrom ts (i + 1)).1),
       none :: (List.replicate t.text.length (some i) ++
         (buildFrom ts (i + 1)).2)) := by
  simp [buildFrom, hi]

theorem buildFrom_text_length :
    ∀ (ts : List OcrToken) (i : Nat), ts ≠ [] →
      (buildFrom ts i).1.length =
        sumTextLens ts + (ts.length - 1) + sepLen i := by
  intro ts
  induction ts with
  | nil => intro i h; exact absurd rfl h
  | cons t ts ih =>
    intro i _
    have hlen1 : (buildFrom (t :: ts) i).1.length =
        sepLen i + t.text.length + (buildFrom ts (i + 1)).1.length := by
      by_cases hi : i = 0
      · subst hi
        rw [buildFrom_cons_zero]
        simp [sepLen]
      · rw [buildFrom_cons_pos t ts i hi]
        simp only [List.length_cons, List.length_append, sepLen,
          if_neg hi]
        omega
    rcases ts with _ | ⟨t2, ts2⟩
    · rw [hlen1]
      have h0 : (buildFrom ([] : List OcrToken) (i + 1)).1.length = 0 := rfl
      rw [h0]
      simp [sumTextLens]
      omega
    · have hrec := ih (i + 1) (by simp)
      rw [hlen1, hrec]
      have h1 : sepLen (i + 1) = 1 := by simp [sepLen]
      rw [h1]
      simp only [sumTextLens_cons, List.length_cons]
      omega

theorem buildFrom_map_length :
    ∀ (ts : List OcrToken) (i : Nat),
      (buildFrom ts i).2.length = (buildFrom ts i).1.length := by
  intro ts
  induction ts with
  | nil => intro i; rfl
  | cons t ts ih =>
    intro i
    by_cases hi : i = 0
    · subst hi
      rw [buildFrom_cons_zero]
      simp [ih 1]
    · rw [buildFrom_cons_pos t ts i hi]
      simp [ih (i + 1)]

theorem buildFrom_get_token :
    ∀ (ts : List OcrToken) (i k : Nat) (t : OcrToken) (j : Nat),
      ts.get? k = some t → j < t.text.length →
      (buildFrom ts i).2.get? (sepLen i + tokenStart ts k + j) =
        some (some (i + k)) := by
  intro ts
  induction ts with
  | nil => intro i k t j h _; simp at h
  | cons t0 ts ih =>
    intro i k t j hk hj
    by_cases hi : i = 0
    · subst hi
      rw [buildFrom_cons_zero]
      cases k with
      | zero =>
        have ht : t0 = t := by simpa using hk
        subst ht
        rw [tokenStart_zero]
        have hpos : sepLen 0 + 0 + j = j := by simp [sepLen]
        rw [hpos]
        rw [get?_append_left _ _ _ (by simpa using hj)]
        simpa using get?_replicate' (some 0) t0.text.length j hj
      | succ k' =>
        have hk' : ts.get? k' = some t := by simpa using hk
        rw [tokenStart_cons]
        have hlen : (List.replicate t0.text.length
            (some 0 : Option Nat)).length ≤
            sepLen 0 + (t0.text.length + 1 + tokenStart ts k') + j := by
          simp [sepLen]
          omega
        rw [get?_append_right' _ _ _ hlen]
        have harg : sepLen 0 + (t0.text.length + 1 + tokenStart ts k') + j -
            (List.replicate t0.text.length (some 0 : Option Nat)).length =
            sepLen 1 + tokenStart ts k' + j := by
          simp [sepLen]
          omega
        rw [harg, ih 1 k' t j hk' hj]
        have : 1 + k' = 0 + (k' + 1) := by omega
        rw [this]
    · rw [buildFrom_cons_pos t0 ts i hi]
      cases k with
      | zero =>
        have ht : t0 = t := by simpa using hk
        subst ht
        rw [tokenStart_zero]
        have hsep : sepLen i = 1 := by simp [sepLen, hi]
        have hpos : sepLen i + 0 + j = (1 + j - 1) + 1 := by omega
        rw [hpos]
        rw [List.get?_cons_succ]
        rw [get?_append_left _ _ _ (by simp; omega)]
        have harg : 1 + j - 1 = j := by omega
        rw [harg]
        simpa using get?_replicate' (some i) t0.text.length j hj
      | succ k' =>
        have hk' : ts.get? k' = some t := by simpa using hk
        rw [tokenStart_cons]
        have hsep : sepLen i = 1 := by simp [sepLen, hi]
        have hpos : sepLen i + (t0.text.length + 1 + tokenStart ts k') + j =
            (t0.text.length + (sepLen (i + 1) + tokenStart ts k' + j)) +
              1 := by
          simp [sepLen, hi]
          omega
        rw [hpos]
        rw [List.get?_cons_succ]
        rw [get?_append_right' _ _ _ (by simp)]
        have harg : t0.text.length +
            (sepLen (i + 1) + tokenStart ts k' + j) -
            (List.replicate t0.text.length (some i : Option Nat)).length =
            sepLen (i + 1) + tokenStart ts k' + j := by
          simp
        rw [harg, ih (i + 1) k' t j hk' hj]
        have : i + 1 + k' = i + (k' + 1) := by omega
        rw [this]

theorem buildFrom_get_sep :
    ∀ (ts : List OcrToken) (i k : Nat), k < ts.length → (0 < k ∨ 0 < i) →
      (buildFrom ts i).2.get? (sepLen i + tokenStart ts k - 1) =
        some none := by
  intro ts
  induction ts with
  | nil => intro i k h _; simp at h
  | cons t0 ts ih =>
    intro i k hk hcond
    by_cases hi : i = 0
    · subst hi
      rw [buildFrom_cons_zero]
      cases k with
      | zero =>
        rcases hcond with h | h <;> omega
      | succ k' =>
        have hk' : k' < ts.length := by simpa using hk
        rw [tokenStart_cons]
        have hlen : (List.replicate t0.text.length
            (some 0 : Option Nat)).length ≤
            sepLen 0 + (t0.text.length + 1 + tokenStart ts k') - 1 := by
          simp [sepLen]
        rw [get?_append_right' _ _ _ hlen]
        have harg : sepLen 0 + (t0.text.length + 1 + tokenStart ts k') - 1 -
            (List.replicate t0.text.length (some 0 : Option Nat)).length =
            sepLen 1 + tokenStart ts k' - 1 := by
          simp [sepLen]
        rw [harg]
        exact ih 1 k' hk' (Or.inr (by omega))
    · rw [buildFrom_cons_pos t0 ts i hi]
      cases k with
      | zero =>
        rw [tokenStart_zero]
        have hpos : sepLen i + 0 - 1 = 0 := by simp [sepLen, hi]
        rw [hpos]
        rfl
      | succ k' =>
        have hk' : k' < ts.length := by simpa using hk
        rw [tokenStart_cons]
        have hpos : sepLen i + (t0.text.length + 1 + tokenStart ts k') - 1 =
            (t0.text.length + (sepLen (i + 1) + tokenStart ts k' - 1)) +
              1 := by
          simp [sepLen, hi]
          omega
        rw [hpos]
        rw [List.get?_cons_succ]
        rw [get?_append_right' _ _ _ (by simp)]
        have harg : t0.text.length +
            (sepLen (i + 1) + tokenStart ts k' - 1) -
            (List.replicate t0.text.length (some i : Option Nat)).length =
            sepLen (i + 1) + tokenStart ts k' - 1 := by
          simp
        rw [harg]
        exact ih (i + 1) k' hk' (Or.inr (by omega))

theorem buildFrom_sep_only :
    ∀ (ts : List OcrToken) (i p : Nat),
      (buildFrom ts i).2.get? p = some none →
      ∃ k, k < ts.length ∧ (0 < k ∨ 0 < i) ∧
        p = sepLen i + tokenStart ts k - 1 := by
  intro ts
  induction ts with
  | nil => intro i p h; simp [buildFrom] at h
  | cons t0 ts ih =>
    intro i p h
    by_cases hi : i = 0
    · subst hi
      rw [buildFrom_cons_zero] at h
      by_cases hp : p < t0.text.length
      · exfalso
        rw [get?_append_left _ _ _ (by simpa using hp)] at h
        rw [get?_replicate' (some 0) t0.text.length p hp] at h
        simp at h
      · rw [get?_append_right' _ _ _ (by simpa using hp)] at h
        simp only [List.length_replicate] at h
        obtain ⟨k', hk', hcond', hpeq⟩ := ih 1 _ h
        refine ⟨k' + 1, by simpa using hk', Or.inl (by omega), ?_⟩
        rw [tokenStart_cons]
        simp [sepLen] at hpeq ⊢
        omega
    · rw [buildFrom_cons_pos t0 ts i hi] at h
      cases hp0 : p with
      | zero =>
        refine ⟨0, by simp, Or.inr (by omega), ?_⟩
        rw [tokenStart_zero]
        simp [sepLen, hi]
      | succ p' =>
        rw [hp0] at h
        rw [List.get?_cons_succ] at h
        by_cases hp : p' < t0.text.length
        · exfalso
          rw [get?_append_left _ _ _ (by simpa using hp)] at h
          rw [get?_replicate' (some i) t0.text.length p' hp] at h
          simp at h
        · rw [get?_append_right' _ _ _ (by simpa using hp)] at h
          simp only [List.length_replicate] at h
          obtain ⟨k', hk', hcond', hpeq⟩ := ih (i + 1) _ h
          refine ⟨k' + 1, by simpa using hk', Or.inl (by omega), ?_⟩
          rw [tokenStart_cons]
          simp [sepLen, hi] at hpeq ⊢
          omega

/-- C5: for every non-empty token sequence the assembled text length is
the sum of the token text lengths plus `n - 1`, the offset index has the
same length as the text, each token's characters map to that token's
index, the inserted separator positions map to `none`, and nothing else
maps to `none`. -/
theorem claim_C5_assembler (tokens : List OcrToken) (h : tokens ≠ []) :
    (buildTextAndMapping tokens).1.length =
      sumTextLens tokens + (tokens.length - 1) ∧
    (buildTextAndMapping tokens).2.length =
      (buildTextAndMapping tokens).1.length ∧
    (∀ (k : Nat) (t : OcrToken) (j : Nat), tokens.get? k = some t →
      j < t.text.length →
      (buildTextAndMapping tokens).2.get? (tokenStart tokens k + j) =
        some (some k)) ∧
    (∀ k, 0 < k → k < tokens.length →
      (buildTextAndMapping tokens).2.get? (tokenStart tokens k - 1) =
        some none) ∧
    (∀ p, (buildTextAndMapping tokens).2.get? p = some none →
      ∃ k, 0 < k ∧ k < tokens.length ∧ p = tokenStart tokens k - 1) := by
  unfold buildTextAndMapping
  refine ⟨?_, buildFrom_map_length tokens 0, ?_, ?_, ?_⟩
  · have := buildFrom_text_length tokens 0 h
    simpa [sepLen] using this
  · intro k t j hk hj
    have := buildFrom_get_token tokens 0 k t j hk hj
    simpa [sepLen] using this
  · intro k hk0 hklen
    have := buildFrom_get_sep tokens 0 k hklen (Or.inl hk0)
    simpa [sepLen] using this
  · intro p hp
    obtain ⟨k, hk, hcond, hpeq⟩ := buildFrom_sep_only tokens 0 p hp
    have hk0 : 0 < k := by rcases hcond with h' | h'; exact h'; omega
    exact ⟨k, hk0, hk, by simpa [sepLen] using hpeq⟩

/-- Witness for C5 at a concrete two-token list. -/
theorem claim_C5_witness :
    (buildTextAndMapping [phoneTokA, phoneTokB]).1.length =
      sumTextLens [phoneTokA, phoneTokB] + (2 - 1) ∧
    (buildTextAndMapping [phoneTokA, phoneTokB]).2.length =
      (buildTextAndMapping [phoneTokA, phoneTokB]).1.length ∧
    (∀ (k : Nat) (t : OcrToken) (j : Nat),
      [phoneTokA, phoneTokB].get? k = some t → j < t.text.length →
      (buildTextAndMapping [phoneTokA, phoneTokB]).2.get?
        (tokenStart [phoneTokA, phoneTokB] k + j) = some (some k)) ∧
    (∀ k, 0 < k → k < ([phoneTokA, phoneTokB] : List OcrToken).length →
      (buildTextAndMapping [phoneTokA, phoneTokB]).2.get?
        (tokenStart [phoneTokA, phoneTokB] k - 1) = some none) ∧
    (∀ p, (buildTextAndMapping [phoneTokA, phoneTokB]).2.get? p =
        some none →
      ∃ k, 0 < k ∧ k < ([phoneTokA, phoneTokB] : List OcrToken).length ∧
        p = tokenStart [phoneTokA, phoneTokB] k - 1) :=
  claim_C5_assembler [phoneTokA, phoneTokB] (by decide)

/-!  ## Claims C6 and C7: redaction -/

theorem redactStep_dims (bf pf : Img → Nat → Nat → Nat)
    (style : RedactionStyle) (img : Img) (r : Region) :
    (redactStep bf pf style img r).width = img.width ∧
    (redactStep bf pf style img r).height = img.height := by
  unfold redactStep
  split
  · exact ⟨rfl, rfl⟩
  · dsimp only
    split
    · exact ⟨rfl, rfl⟩
    · cases style <;> exact ⟨rfl, rfl⟩

theorem pixInClamp_congr {img1 img2 : Img} (r : Region) (i j : Nat)
    (hw : img1.width = img2.width) (hh : img1.height = img2.height) :
    pixInClamp img1 r i j ↔ pixInClamp img2 r i j := by
  unfold pixInClamp
  rw [hw, hh]

theorem redactStep_outside (bf pf : Img → Nat → Nat → Nat)
    (style : RedactionStyle) (img : Img) (r : Region) (i j : Nat)
    (h : ¬ pixInClamp img r i j) :
    (redactStep bf pf style img r).pix i j = img.pix i j := by
  unfold redactStep
  split
  · rfl
  · dsimp only
    split
    · rfl
    · cases style
      · show (applyPaste bf img _ _ _ _).pix i j = img.pix i j
        unfold applyPaste
        dsimp only
        split
        · rename_i hc
          exact absurd ⟨hc.1, by omega, hc.2.2.1, by omega⟩ h
        · rfl
      · show (applySolid img _ _ _ _).pix i j = img.pix i j
        unfold applySolid
        dsimp only
        split
        · rename_i hc
          exact absurd ⟨hc.1, hc.2.1, hc.2.2.1, hc.2.2.2.1⟩ h
        · rfl
      · show (applyPaste pf img _ _ _ _).pix i j = img.pix i j
        unfold applyPaste
        dsimp only
        split
        · rename_i hc
          exact absurd ⟨hc.1, by omega, hc.2.2.1, by omega⟩ h
        · rfl

theorem redactFold_dims (bf pf : Img → Nat → Nat → Nat)
    (style : RedactionStyle) :
    ∀ (rs : List Region) (img : Img),
      (rs.foldl (redactStep bf pf style) img).width = img.width ∧
      (rs.foldl (redactStep bf pf style) img).height = img.height := by
  intro rs
  induction rs with
  | nil => intro img; exact ⟨rfl, rfl⟩
  | cons r rs ih =>
    intro img
    rw [List.foldl_cons]
    obtain ⟨hw, hh⟩ := ih (redactStep bf pf style img r)
    obtain ⟨hw', hh'⟩ := redactStep_dims bf pf style img r
    exact ⟨hw.trans hw', hh.trans hh'⟩

theorem redactFold_outside (bf pf : Img → Nat → Nat → Nat)
    (style : RedactionStyle) :
    ∀ (rs : List Region) (img : Img) (i j : Nat),
      (∀ r ∈ rs, ¬ pixInClamp img r i j) →
      (rs.foldl (redactStep bf pf style) img).pix i j = img.pix i j := by
  intro rs
  induction rs with
  | nil => intro img i j _; rfl
  | cons r rs ih =>
    intro img i j hall
    rw [List.foldl_cons]
    obtain ⟨hw, hh⟩ := redactStep_dims bf pf style img r
    have hrest : ∀ r' ∈ rs, ¬ pixInClamp (redactStep bf pf style img r)
        r' i j := by
      intro r' hr'
      rw [pixInClamp_congr r' i j hw hh]
      exact hall r' (List.mem_cons_of_mem r hr')
    rw [ih (redactStep bf pf style img r) i j hrest]
    exact redactStep_outside bf pf style img r i j
      (hall r (List.mem_cons_self r rs))

/-- Counterexample to C6 as stated: on a 1×1 image with pixel value `1`,
the region list holds an unselected region and a selected region both
covering the pixel; after SOLID redaction the unselected region's covered
pixel is repainted (by the selected region), so it is not bit-identical
to the source. -/
theorem claim_C6_counterexample :
    regUnsel.selected = false ∧
    pixInClamp img1 regUnsel 0 0 ∧
    (applyRedaction zeroFn zeroFn img1 [regUnsel, regSel]
      RedactionStyle.SOLID).pix 0 0 ≠ img1.pix 0 0 := by
  refine ⟨rfl, ?_, by decide⟩
  refine ⟨by decide, by decide, by decide, by decide⟩

/-- C6 (amended): unselected regions are never themselves redacted — the
output equals the output on the selected-only sublist, and any pixel not
lying in the clamped rectangle of some selected region (in particular a
pixel of an unselected region not covered by any selected region) is
bit-identical to the source. -/
theorem claim_C6_selection_gate (bf pf : Img → Nat → Nat → Nat)
    (img : Img) (regions : List Region) (style : RedactionStyle) :
    applyRedaction bf pf img regions style =
      applyRedaction bf pf img (regions.filter fun r => r.selected) style ∧
    ∀ i j, (∀ r ∈ regions, r.selected = true → ¬ pixInClamp img r i j) →
      (applyRedaction bf pf img regions style).pix i j = img.pix i j := by
  constructor
  · unfold applyRedaction
    rw [List.filter_filter]
    simp
  · intro i j hall
    unfold applyRedaction
    apply redactFold_outside
    intro r hr
    have := List.mem_filter.mp hr
    exact hall r this.1 this.2

/-- Witness for C6 (amended) on the 1×1 fixture with only the unselected
region: the pixel survives untouched. -/
theorem claim_C6_witness :
    applyRedaction zeroFn zeroFn img1 [regUnsel] RedactionStyle.SOLID =
      applyRedaction zeroFn zeroFn img1
        ([regUnsel].filter fun r => r.selected) RedactionStyle.SOLID ∧
    ∀ i j, (∀ r ∈ [regUnsel], r.selected = true →
        ¬ pixInClamp img1 r i j) →
      (applyRedaction zeroFn zeroFn img1 [regUnsel]
        RedactionStyle.SOLID).pix i j = img1.pix i j :=
  claim_C6_selection_gate zeroFn zeroFn img1 [regUnsel]
    RedactionStyle.SOLID

/-- C7 (failing input): on a 3×3 image of pixel value `1` with the
selected region `(0, 0, 1, 1)`, SOLID redaction fills the claim's clamped
half-open rectangle — the single pixel `(0, 0)` — but also paints
`(1, 0)`, which lies strictly outside it, because PIL's
`ImageDraw.rectangle` includes both corner points; pixel `(2, 0)` is
unchanged.  This contradicts the claim's requirement that every pixel
strictly outside the union of the clamped rectangles be left unchanged. -/
theorem claim_C7_solid_overflow :
    (applyRedaction zeroFn zeroFn img3 [regOne]
      RedactionStyle.SOLID).pix 0 0 = blackPix ∧
    ¬ ((1 : Int) < min (img3.width : Int) (regOne.x + regOne.w)) ∧
    (applyRedaction zeroFn zeroFn img3 [regOne]
      RedactionStyle.SOLID).pix 1 0 = blackPix ∧
    (applyRedaction zeroFn zeroFn img3 [regOne]
      RedactionStyle.SOLID).pix 2 0 = img3.pix 2 0 := by
  refine ⟨by decide, by decide, by decide, by decide⟩

end ScreenSanctum
